import Mathlib

/-!
# Branch predictors of `gshare.cpp`

A shallow embedding of the two predictors of `src/src/gshare.cpp`:
`GShare` (global history) and `GSharePlus` (tournament of a global and a
local predictor), followed by theorems about them.

Conventions of the embedding.
* `uint32_t` values are natural numbers; where the C++ arithmetic can leave
  32 bits the result is reduced `% 2 ^ 32` explicitly.
* A `std::vector` is a `List`.  `v[i]` is `List.getD` (an index outside the
  table reads the value the table was filled with at construction) and
  `v[i] = x` is `List.set` (an index outside the table writes nothing).  That
  every index the code computes is inside its table is a theorem, not an
  assumption.
* `bool` used as an integer (`... | taken`) is `Bool.toNat`.
-/

/-- Modelled from the spec: the BTB entry `{valid: bool, target_PC: u32, tag: u32}`.
The declaration of `BTB_entry_t` is in `core.h`, which is not among the sources;
the source initialises it with `BTB_entry_t{false, 0x0, 0x0}` and reads the
fields `valid`, `target_PC` and `tag`. -/
structure BTB_entry_t where
  valid : Bool
  target_PC : Nat
  tag : Nat
deriving DecidableEq, Repr

/-- Search for the least `k` with `n ≤ 2 ^ k`, starting at `k`. -/
def log2ceilFrom (n : Nat) : Nat → Nat → Nat
  | 0, k => k
  | fuel + 1, k => if n ≤ 2 ^ k then k else log2ceilFrom n fuel (k + 1)

/-- Modelled from the spec: `log2ceil` of `util.h`, which is not among the
sources.  The spec gives `btb_shift = ceil(log2(BTB_size))`: the least `k`
with `BTB_size ≤ 2 ^ k` (at most 32 for a 32-bit argument). -/
def log2ceil (n : Nat) : Nat := log2ceilFrom n 32 0

/-- The C++ expression `1 << n` of the constructors.  The literal `1` is a
32-bit `int`: for `n ≤ 30` the value is `2 ^ n`.  Beyond that C++ does not
define the value.  For `n = 31` the embedding keeps the bit pattern `2 ^ 31` (as
an `int` it is negative, and the program cannot allocate a table of that size,
so no predictor exists there).  From `n = 32` on the shift count is taken modulo
32, as the shift instruction of the compiled program takes it: a predictor built
with `BHR_size = 32` has a one-entry PHT and the mask 0. -/
def shl1 (n : Nat) : Nat := 1 <<< (n % 32)

/-- One step of a saturating counter as written in every `update`:
`if (taken) { if (c < hi) c++; } else { if (c > 0) c--; }`. -/
def satStep (hi c : Nat) (taken : Bool) : Nat :=
  if taken then (if c < hi then c + 1 else c) else (if c > 0 then c - 1 else c)

/-- The entry every BTB is filled with at construction. -/
def BTB_empty : BTB_entry_t := { valid := false, target_PC := 0, tag := 0 }

/-! ## GShare -/

/-- Modelled from the spec: the state of `class GShare`.  The class declaration
is in `core.h`, which is not among the sources; the members are those the
constructor initialises, with the element types of section 3 of the
specification (counters and registers are unsigned). -/
structure GShare where
  BTB_ : List BTB_entry_t
  PHT_ : List Nat
  BHR_ : Nat
  BTB_shift_ : Nat
  BTB_mask_ : Nat
  BHR_mask_ : Nat
deriving DecidableEq, Repr

/-- The constructor `GShare::GShare(BTB_size, BHR_size)`. -/
def GShare.new (BTB_size BHR_size : Nat) : GShare :=
  { BTB_ := List.replicate BTB_size BTB_empty
    PHT_ := List.replicate (shl1 BHR_size) 0
    BHR_ := 0
    BTB_shift_ := log2ceil BTB_size
    BTB_mask_ := (BTB_size + 2 ^ 32 - 1) % 2 ^ 32
    BHR_mask_ := (shl1 BHR_size + 2 ^ 32 - 1) % 2 ^ 32 }

/-- The index `((PC >> 2) ^ BHR_) & BHR_mask_` used by `predict` and `update`. -/
def GShare.PHT_index (s : GShare) (PC : Nat) : Nat :=
  ((PC >>> 2) ^^^ s.BHR_) &&& s.BHR_mask_

/-- The BTB index of `predict`: `uint8_t btb_index = (PC >> 2) & BTB_mask_`. -/
def GShare.predict_btb_index (s : GShare) (PC : Nat) : Nat :=
  ((PC >>> 2) &&& s.BTB_mask_) % 2 ^ 8

/-- The BTB index of `update`: `uint32_t btb_index = (PC >> 2) & BTB_mask_`. -/
def GShare.update_btb_index (s : GShare) (PC : Nat) : Nat :=
  (PC >>> 2) &&& s.BTB_mask_

/-- The tag `(PC >> 2) >> BTB_shift_`. -/
def GShare.tag (s : GShare) (PC : Nat) : Nat :=
  (PC >>> 2) >>> s.BTB_shift_

/-- The local `predict_taken` of `GShare::predict`. -/
def GShare.predict_taken (s : GShare) (PC : Nat) : Bool :=
  decide (2 ≤ s.PHT_.getD (s.PHT_index PC) 0)

/-- The method `GShare::predict`. -/
def GShare.predict (s : GShare) (PC : Nat) : Nat :=
  let next_PC := (PC + 4) % 2 ^ 32
  let btb_index := s.predict_btb_index PC
  let tag := s.tag PC
  if s.predict_taken PC then
    if (s.BTB_.getD btb_index BTB_empty).valid
        && decide ((s.BTB_.getD btb_index BTB_empty).tag = tag) then
      (s.BTB_.getD btb_index BTB_empty).target_PC
    else next_PC
  else next_PC

/-- The method `GShare::update`. -/
def GShare.update (s : GShare) (PC next_PC : Nat) (taken : Bool) : GShare :=
  let index := s.PHT_index PC
  let tag := s.tag PC
  let PHT := s.PHT_.set index (satStep 3 (s.PHT_.getD index 0) taken)
  let BHR := (((s.BHR_ <<< 1) % 2 ^ 32) ||| taken.toNat) &&& s.BHR_mask_
  let BTB :=
    if taken then
      s.BTB_.set (s.update_btb_index PC)
        { valid := true, target_PC := next_PC, tag := tag }
    else s.BTB_
  { s with PHT_ := PHT, BHR_ := BHR, BTB_ := BTB }

/-- A call of `update`: `(PC, next_PC, taken)`. -/
abbrev Call := Nat × Nat × Bool

/-- The state after a sequence of `update` calls. -/
def GShare.run (s : GShare) (calls : List Call) : GShare :=
  calls.foldl (fun st c => st.update c.1 c.2.1 c.2.2) s

/-! ## GSharePlus -/

/-- Modelled from the spec: the state of `class GSharePlus`.  The class
declaration is in `core.h`, which is not among the sources; the members are
those the constructor initialises, with the element types of section 3 of the
specification (counters and registers are unsigned). -/
structure GSharePlus where
  BTB_ : List BTB_entry_t
  PHT_ : List Nat
  LPHT_ : List Nat
  LHT_ : List Nat
  MetaPredictor_ : List Nat
  BHR_ : Nat
  BTB_shift_ : Nat
  BTB_mask_ : Nat
  BHR_mask_ : Nat
  LPHT_mask_ : Nat
  LHT_mask_ : Nat
deriving DecidableEq, Repr

/-- The constructor `GSharePlus::GSharePlus(BTB_size, BHR_size)`. -/
def GSharePlus.new (BTB_size BHR_size : Nat) : GSharePlus :=
  { BTB_ := List.replicate BTB_size BTB_empty
    PHT_ := List.replicate (shl1 BHR_size) 0
    LPHT_ := List.replicate (shl1 8) 0
    LHT_ := List.replicate BTB_size 0
    MetaPredictor_ := List.replicate BTB_size 4
    BHR_ := 0
    BTB_shift_ := log2ceil BTB_size
    BTB_mask_ := if BTB_size > 0 then BTB_size - 1 else 0
    BHR_mask_ := (shl1 BHR_size + 2 ^ 32 - 1) % 2 ^ 32
    LPHT_mask_ := shl1 8 - 1
    LHT_mask_ := shl1 8 - 1 }

/-- The index `((PC >> 2) ^ BHR_) & BHR_mask_`. -/
def GSharePlus.PHT_index (s : GSharePlus) (PC : Nat) : Nat :=
  ((PC >>> 2) ^^^ s.BHR_) &&& s.BHR_mask_

/-- The index `(PC >> 2) & BTB_mask_`; `lht_index` is the same value. -/
def GSharePlus.btb_index (s : GSharePlus) (PC : Nat) : Nat :=
  (PC >>> 2) &&& s.BTB_mask_

/-- The index `LHT_[lht_index] & LPHT_mask_`. -/
def GSharePlus.lpht_index (s : GSharePlus) (PC : Nat) : Nat :=
  (s.LHT_.getD (s.btb_index PC) 0) &&& s.LPHT_mask_

/-- The local `gshare_pred` of `predict`. -/
def GSharePlus.gshare_pred (s : GSharePlus) (PC : Nat) : Bool :=
  decide (2 ≤ s.PHT_.getD (s.PHT_index PC) 0)

/-- The local `local_pred` of `predict`. -/
def GSharePlus.local_pred (s : GSharePlus) (PC : Nat) : Bool :=
  decide (2 ≤ s.LPHT_.getD (s.lpht_index PC) 0)

/-- The local `use_gshare` of `predict`. -/
def GSharePlus.use_gshare (s : GSharePlus) (PC : Nat) : Bool :=
  decide (4 ≤ s.MetaPredictor_.getD (s.btb_index PC) 4)

/-- The local `predict_taken` of `GSharePlus::predict`. -/
def GSharePlus.predict_taken (s : GSharePlus) (PC : Nat) : Bool :=
  if s.use_gshare PC then s.gshare_pred PC else s.local_pred PC

/-- The method `GSharePlus::predict`. -/
def GSharePlus.predict (s : GSharePlus) (PC : Nat) : Nat :=
  let next_PC := (PC + 4) % 2 ^ 32
  let btb_index := s.btb_index PC
  if s.predict_taken PC then
    if (s.BTB_.getD btb_index BTB_empty).valid
        && decide ((s.BTB_.getD btb_index BTB_empty).tag = PC >>> s.BTB_shift_) then
      (s.BTB_.getD btb_index BTB_empty).target_PC
    else next_PC
  else next_PC

/-- The global table after the first block of `update` ("Update GShare
predictor"). -/
def GSharePlus.PHT_after (s : GSharePlus) (PC : Nat) (taken : Bool) : List Nat :=
  s.PHT_.set (s.PHT_index PC) (satStep 3 (s.PHT_.getD (s.PHT_index PC) 0) taken)

/-- The local table after the second block of `update` ("Update Local History
predictor"). -/
def GSharePlus.LPHT_after (s : GSharePlus) (PC : Nat) (taken : Bool) : List Nat :=
  s.LPHT_.set (s.lpht_index PC) (satStep 3 (s.LPHT_.getD (s.lpht_index PC) 0) taken)

/-- The local `gshare_correct` of `update`: read from the table already
updated. -/
def GSharePlus.gshare_correct (s : GSharePlus) (PC : Nat) (taken : Bool) : Bool :=
  decide (2 ≤ (s.PHT_after PC taken).getD (s.PHT_index PC) 0) == taken

/-- The local `local_correct` of `update`: read from the table already updated,
at the index computed before the local history was shifted. -/
def GSharePlus.local_correct (s : GSharePlus) (PC : Nat) (taken : Bool) : Bool :=
  decide (2 ≤ (s.LPHT_after PC taken).getD (s.lpht_index PC) 0) == taken

/-- The method `GSharePlus::update`.  The shift of the local history is written
without a reduction to the element width of `LHT_` (declared in `core.h`):
under the 8-bit mask that follows it the result is the same for every width. -/
def GSharePlus.update (s : GSharePlus) (PC next_PC : Nat) (taken : Bool) : GSharePlus :=
  let btb_index := s.btb_index PC
  let lht_index := btb_index
  let PHT := s.PHT_after PC taken
  let LPHT := s.LPHT_after PC taken
  let LHT := s.LHT_.set lht_index
    ((((s.LHT_.getD lht_index 0) <<< 1) ||| taken.toNat) &&& s.LHT_mask_)
  let gshare_correct := s.gshare_correct PC taken
  let local_correct := s.local_correct PC taken
  let m := s.MetaPredictor_.getD btb_index 4
  let Meta :=
    if gshare_correct != local_correct then
      if gshare_correct then
        (if m < 7 then s.MetaPredictor_.set btb_index (m + 1) else s.MetaPredictor_)
      else
        (if m > 0 then s.MetaPredictor_.set btb_index (m - 1) else s.MetaPredictor_)
    else s.MetaPredictor_
  let BTB :=
    if taken then
      s.BTB_.set btb_index
        { valid := true, target_PC := next_PC, tag := PC >>> s.BTB_shift_ }
    else s.BTB_
  { s with PHT_ := PHT, LPHT_ := LPHT, LHT_ := LHT, MetaPredictor_ := Meta, BTB_ := BTB }

/-- The state after a sequence of `update` calls. -/
def GSharePlus.run (s : GSharePlus) (calls : List Call) : GSharePlus :=
  calls.foldl (fun st c => st.update c.1 c.2.1 c.2.2) s

/-- Reference arbitration of the tournament predictor, written from the words
of the specification (section 4.2, Predict) and not from the source; it is
compared with `GSharePlus.predict` below. -/
def GSharePlus.predict_reference (s : GSharePlus) (PC : Nat) : Nat :=
  let word := PC >>> 2
  let btb_index := word &&& s.BTB_mask_
  let direction : Bool :=
    if 4 ≤ s.MetaPredictor_.getD btb_index 4 then
      decide (2 ≤ s.PHT_.getD ((word ^^^ s.BHR_) &&& s.BHR_mask_) 0)
    else
      decide (2 ≤ s.LPHT_.getD (s.LHT_.getD btb_index 0 &&& 0xFF) 0)
  let entry := s.BTB_.getD btb_index BTB_empty
  if direction = true ∧ entry.valid = true ∧ entry.tag = PC >>> s.BTB_shift_ then
    entry.target_PC
  else (PC + 4) % 2 ^ 32

/-- Along a sequence of `update` calls, each call has its PC at BTB index `site`
and in each `update` judges the global predictor wrong and the local one right
(`gshare_correct == false`, `local_correct == true`). -/
def GSharePlus.localWins (s : GSharePlus) (site : Nat) : List Call → Bool
  | [] => true
  | c :: cs =>
    decide (s.btb_index c.1 = site)
      && !(s.gshare_correct c.1 c.2.2)
      && s.local_correct c.1 c.2.2
      && GSharePlus.localWins (s.update c.1 c.2.1 c.2.2) site cs

/-- Reference update of the global-history predictor, written from the words of
the specification (section 4.1, Update) and not from the source: the counter
moves by one, saturating at 3 and 0; the outcome is shifted into the history
register; a taken branch overwrites its BTB entry.  It is compared with
`GShare.update` below. -/
def GShare.update_reference (s : GShare) (PC next_PC : Nat) (taken : Bool) : GShare :=
  let word := PC >>> 2
  let pht_index := (word ^^^ s.BHR_) &&& s.BHR_mask_
  let c := s.PHT_.getD pht_index 0
  { s with
    PHT_ := s.PHT_.set pht_index (if taken then min (c + 1) 3 else max (c - 1) 0)
    BHR_ := ((s.BHR_ <<< 1) ||| taken.toNat) &&& s.BHR_mask_
    BTB_ :=
      if taken then
        s.BTB_.set (word &&& s.BTB_mask_)
          { valid := true, target_PC := next_PC, tag := word >>> s.BTB_shift_ }
      else s.BTB_ }

/-- The target of the most recent call `update(PC, T, true)` in a sequence of
calls, if there is one: the calls are scanned in order and the last match is
kept. -/
def lastTarget (PC : Nat) (calls : List Call) : Option Nat :=
  calls.foldl (fun acc c => if c.1 = PC ∧ c.2.2 = true then some c.2.1 else acc) none

/-! ## Shape of the reachable states -/

/-- The shape of a `GShare` built with sizes `B` and `H`: table lengths and the
constants set by the constructor, together with the ranges of the counters and
of the history register. -/
structure GShare.Inv (B H : Nat) (s : GShare) : Prop where
  BTB_length : s.BTB_.length = B
  PHT_length : s.PHT_.length = shl1 H
  BTB_shift : s.BTB_shift_ = log2ceil B
  BTB_mask : s.BTB_mask_ = (B + 2 ^ 32 - 1) % 2 ^ 32
  BHR_mask : s.BHR_mask_ = (shl1 H + 2 ^ 32 - 1) % 2 ^ 32
  PHT_le : ∀ c ∈ s.PHT_, c ≤ 3
  BHR_le : s.BHR_ ≤ s.BHR_mask_

/-- The shape of a `GSharePlus` built with sizes `B` and `H`: table lengths and
the constants set by the constructor, the history register (never written), and
the ranges of the counters and of the local histories. -/
structure GSharePlus.Inv (B H : Nat) (s : GSharePlus) : Prop where
  BTB_length : s.BTB_.length = B
  PHT_length : s.PHT_.length = shl1 H
  LPHT_length : s.LPHT_.length = 256
  LHT_length : s.LHT_.length = B
  Meta_length : s.MetaPredictor_.length = B
  BHR : s.BHR_ = 0
  BTB_shift : s.BTB_shift_ = log2ceil B
  BTB_mask : s.BTB_mask_ = if B > 0 then B - 1 else 0
  BHR_mask : s.BHR_mask_ = (shl1 H + 2 ^ 32 - 1) % 2 ^ 32
  LPHT_mask : s.LPHT_mask_ = 255
  LHT_mask : s.LHT_mask_ = 255
  PHT_le : ∀ c ∈ s.PHT_, c ≤ 3
  LPHT_le : ∀ c ∈ s.LPHT_, c ≤ 3
  Meta_le : ∀ m ∈ s.MetaPredictor_, m ≤ 7
  LHT_le : ∀ h ∈ s.LHT_, h ≤ 255

/-! ## Tables: reading after writing -/

theorem getD_set_same {α : Type} (l : List α) (i : Nat) (v d : α) (h : i < l.length) :
    (l.set i v).getD i d = v := by
  simp [List.getElem?_set, h]

theorem getD_set_other {α : Type} (l : List α) (i j : Nat) (v d : α) (h : i ≠ j) :
    (l.set i v).getD j d = l.getD j d := by
  simp [List.getElem?_set_ne h]

theorem getD_replicate_same {α : Type} (n i : Nat) (a : α) :
    (List.replicate n a).getD i a = a := by
  simp [List.getElem?_replicate]
  split <;> rfl

theorem forall_mem_set {α : Type} (P : α → Prop) (l : List α) (i : Nat) (v : α)
    (hl : ∀ a ∈ l, P a) (hv : P v) : ∀ a ∈ l.set i v, P a := by
  intro a ha
  rcases List.mem_or_eq_of_mem_set ha with h | h
  · exact hl a h
  · exact h ▸ hv

theorem getD_le_of_forall (l : List Nat) (i d b : Nat) (hl : ∀ a ∈ l, a ≤ b) (hd : d ≤ b) :
    l.getD i d ≤ b := by
  rw [List.getD_eq_getElem?_getD]
  cases h : l[i]? with
  | none => simpa using hd
  | some a => simpa using hl a (List.getElem?_mem h)

theorem satStep_le (hi c : Nat) (taken : Bool) (h : c ≤ hi) : satStep hi c taken ≤ hi := by
  unfold satStep
  split <;> split <;> omega

/-! ## Arithmetic of the constructor -/

theorem shl1_eq (H : Nat) : shl1 H = 2 ^ (H % 32) := by
  unfold shl1
  rw [Nat.one_shiftLeft]

theorem shl1_of_lt (H : Nat) (h : H < 32) : shl1 H = 2 ^ H := by
  rw [shl1_eq, Nat.mod_eq_of_lt h]

theorem BHR_mask_of_lt (H : Nat) (h : H < 32) :
    (shl1 H + 2 ^ 32 - 1) % 2 ^ 32 = 2 ^ H - 1 := by
  rw [shl1_of_lt H h]
  have h1 : 0 < 2 ^ H := Nat.two_pow_pos H
  have h2 : 2 ^ H < 2 ^ 32 := Nat.pow_lt_pow_right (by decide) h
  omega

theorem BHR_mask_lt (H : Nat) : (shl1 H + 2 ^ 32 - 1) % 2 ^ 32 < 2 ^ H := by
  rcases Nat.lt_or_ge H 32 with h | h
  · rw [BHR_mask_of_lt H h]
    have h1 : 0 < 2 ^ H := Nat.two_pow_pos H
    omega
  · have h2 : 2 ^ 32 ≤ 2 ^ H := Nat.pow_le_pow_right (by decide) h
    have h3 : (shl1 H + 2 ^ 32 - 1) % 2 ^ 32 < 2 ^ 32 := Nat.mod_lt _ (by decide)
    omega

/-- The search returns the least exponent whose power of two reaches `n`. -/
theorem log2ceilFrom_spec (n : Nat) : ∀ (fuel k : Nat), n ≤ 2 ^ (k + fuel) →
    (∀ j, j < k → 2 ^ j < n) →
    n ≤ 2 ^ (log2ceilFrom n fuel k) ∧ ∀ j, j < log2ceilFrom n fuel k → 2 ^ j < n := by
  intro fuel
  induction fuel with
  | zero => intro k h1 h2; exact ⟨h1, h2⟩
  | succ f ih =>
    intro k h1 h2
    unfold log2ceilFrom
    split
    · exact ⟨by assumption, h2⟩
    · rename_i hlt
      apply ih (k + 1)
      · have : k + 1 + f = k + (f + 1) := by omega
        rw [this]; exact h1
      · intro j hj
        rcases Nat.lt_succ_iff_lt_or_eq.mp hj with h | h
        · exact h2 j h
        · rw [h]; omega

/-- The modelled `log2ceil` is the ceiling of the base-2 logarithm. -/
theorem log2ceil_spec (n : Nat) (h : n ≤ 2 ^ 32) :
    n ≤ 2 ^ (log2ceil n) ∧ ∀ j, j < log2ceil n → 2 ^ j < n :=
  log2ceilFrom_spec n 32 0 (by simpa using h) (fun j hj => absurd hj (Nat.not_lt_zero j))

/-- On a power of two `log2ceil` is the exponent. -/
theorem log2ceil_two_pow : ∀ k, k < 32 → log2ceil (2 ^ k) = k := by
  decide

/-! ## GShare: what `update` keeps -/

theorem GShare.update_BTB_shift (s : GShare) (PC T : Nat) (t : Bool) :
    (s.update PC T t).BTB_shift_ = s.BTB_shift_ := rfl

theorem GShare.update_BTB_mask (s : GShare) (PC T : Nat) (t : Bool) :
    (s.update PC T t).BTB_mask_ = s.BTB_mask_ := rfl

theorem GShare.update_BHR_mask (s : GShare) (PC T : Nat) (t : Bool) :
    (s.update PC T t).BHR_mask_ = s.BHR_mask_ := rfl

theorem GShare.update_PHT_length (s : GShare) (PC T : Nat) (t : Bool) :
    (s.update PC T t).PHT_.length = s.PHT_.length := by
  simp [GShare.update]

theorem GShare.update_BTB_length (s : GShare) (PC T : Nat) (t : Bool) :
    (s.update PC T t).BTB_.length = s.BTB_.length := by
  unfold GShare.update
  cases t <;> simp

theorem GShare.run_append (s : GShare) (cs ds : List Call) :
    s.run (cs ++ ds) = (s.run cs).run ds := by
  simp [GShare.run]

/-- A property kept by every `update` holds after every sequence of calls. -/
theorem GShare.run_induction (P : GShare → Prop)
    (step : ∀ s PC T t, P s → P (s.update PC T t)) :
    ∀ (cs : List Call) (s : GShare), P s → P (s.run cs) := by
  intro cs
  induction cs with
  | nil => intro s h; exact h
  | cons c cs ih => intro s h; exact ih _ (step s c.1 c.2.1 c.2.2 h)

theorem GShare.Inv_new (B H : Nat) : GShare.Inv B H (GShare.new B H) where
  BTB_length := by simp [GShare.new]
  PHT_length := by simp [GShare.new]
  BTB_shift := rfl
  BTB_mask := rfl
  BHR_mask := rfl
  PHT_le := by
    intro c hc
    have := List.eq_of_mem_replicate hc
    omega
  BHR_le := Nat.zero_le _

theorem GShare.Inv_update (B H : Nat) (s : GShare) (PC T : Nat) (t : Bool)
    (h : GShare.Inv B H s) : GShare.Inv B H (s.update PC T t) where
  BTB_length := by rw [GShare.update_BTB_length]; exact h.BTB_length
  PHT_length := by rw [GShare.update_PHT_length]; exact h.PHT_length
  BTB_shift := h.BTB_shift
  BTB_mask := h.BTB_mask
  BHR_mask := h.BHR_mask
  PHT_le := by
    apply forall_mem_set _ _ _ _ h.PHT_le
    exact satStep_le _ _ _ (getD_le_of_forall _ _ _ _ h.PHT_le (by decide))
  BHR_le := Nat.and_le_right

theorem GShare.Inv_run (B H : Nat) (cs : List Call) :
    GShare.Inv B H ((GShare.new B H).run cs) :=
  GShare.run_induction (GShare.Inv B H) (GShare.Inv_update B H) cs _ (GShare.Inv_new B H)

/-! ## GSharePlus: what `update` keeps -/

theorem GSharePlus.plus_update_BHR (s : GSharePlus) (PC T : Nat) (t : Bool) :
    (s.update PC T t).BHR_ = s.BHR_ := rfl

theorem GSharePlus.plus_update_BTB_shift (s : GSharePlus) (PC T : Nat) (t : Bool) :
    (s.update PC T t).BTB_shift_ = s.BTB_shift_ := rfl

theorem GSharePlus.plus_update_BTB_mask (s : GSharePlus) (PC T : Nat) (t : Bool) :
    (s.update PC T t).BTB_mask_ = s.BTB_mask_ := rfl

theorem GSharePlus.plus_update_BHR_mask (s : GSharePlus) (PC T : Nat) (t : Bool) :
    (s.update PC T t).BHR_mask_ = s.BHR_mask_ := rfl

theorem GSharePlus.update_LPHT_mask (s : GSharePlus) (PC T : Nat) (t : Bool) :
    (s.update PC T t).LPHT_mask_ = s.LPHT_mask_ := rfl

theorem GSharePlus.update_LHT_mask (s : GSharePlus) (PC T : Nat) (t : Bool) :
    (s.update PC T t).LHT_mask_ = s.LHT_mask_ := rfl

theorem GSharePlus.plus_update_PHT (s : GSharePlus) (PC T : Nat) (t : Bool) :
    (s.update PC T t).PHT_ = s.PHT_after PC t := rfl

theorem GSharePlus.update_LPHT (s : GSharePlus) (PC T : Nat) (t : Bool) :
    (s.update PC T t).LPHT_ = s.LPHT_after PC t := rfl

theorem GSharePlus.update_LHT (s : GSharePlus) (PC T : Nat) (t : Bool) :
    (s.update PC T t).LHT_ = s.LHT_.set (s.btb_index PC)
      ((((s.LHT_.getD (s.btb_index PC) 0) <<< 1) ||| t.toNat) &&& s.LHT_mask_) := rfl

theorem GSharePlus.plus_update_BTB_taken (s : GSharePlus) (PC T : Nat) :
    (s.update PC T true).BTB_ = s.BTB_.set (s.btb_index PC)
      { valid := true, target_PC := T, tag := PC >>> s.BTB_shift_ } := rfl

theorem GSharePlus.plus_update_BTB_not_taken (s : GSharePlus) (PC T : Nat) :
    (s.update PC T false).BTB_ = s.BTB_ := rfl

theorem GSharePlus.plus_update_PHT_length (s : GSharePlus) (PC T : Nat) (t : Bool) :
    (s.update PC T t).PHT_.length = s.PHT_.length := by
  simp [GSharePlus.plus_update_PHT, GSharePlus.PHT_after]

theorem GSharePlus.update_LPHT_length (s : GSharePlus) (PC T : Nat) (t : Bool) :
    (s.update PC T t).LPHT_.length = s.LPHT_.length := by
  simp [GSharePlus.update_LPHT, GSharePlus.LPHT_after]

theorem GSharePlus.update_LHT_length (s : GSharePlus) (PC T : Nat) (t : Bool) :
    (s.update PC T t).LHT_.length = s.LHT_.length := by
  simp [GSharePlus.update_LHT]

theorem GSharePlus.plus_update_BTB_length (s : GSharePlus) (PC T : Nat) (t : Bool) :
    (s.update PC T t).BTB_.length = s.BTB_.length := by
  cases t
  · rw [GSharePlus.plus_update_BTB_not_taken]
  · rw [GSharePlus.plus_update_BTB_taken, List.length_set]

/-- The meta-predictor table after `update`, case by case on the two locals
`gshare_correct` and `local_correct`. -/
theorem GSharePlus.update_Meta (s : GSharePlus) (PC T : Nat) (t : Bool) :
    (s.update PC T t).MetaPredictor_ =
      if (s.gshare_correct PC t != s.local_correct PC t) = true then
        if s.gshare_correct PC t = true then
          (if s.MetaPredictor_.getD (s.btb_index PC) 4 < 7 then
            s.MetaPredictor_.set (s.btb_index PC) (s.MetaPredictor_.getD (s.btb_index PC) 4 + 1)
          else s.MetaPredictor_)
        else
          (if s.MetaPredictor_.getD (s.btb_index PC) 4 > 0 then
            s.MetaPredictor_.set (s.btb_index PC) (s.MetaPredictor_.getD (s.btb_index PC) 4 - 1)
          else s.MetaPredictor_)
      else s.MetaPredictor_ := rfl

theorem GSharePlus.update_Meta_length (s : GSharePlus) (PC T : Nat) (t : Bool) :
    (s.update PC T t).MetaPredictor_.length = s.MetaPredictor_.length := by
  rw [GSharePlus.update_Meta]
  split
  · split <;> split <;> simp
  · rfl

theorem GSharePlus.plus_run_nil (s : GSharePlus) : s.run [] = s := rfl

theorem GSharePlus.plus_run_cons (s : GSharePlus) (c : Call) (cs : List Call) :
    s.run (c :: cs) = (s.update c.1 c.2.1 c.2.2).run cs := rfl

theorem GSharePlus.plus_run_append (s : GSharePlus) (cs ds : List Call) :
    s.run (cs ++ ds) = (s.run cs).run ds := by
  simp [GSharePlus.run]

/-- A property kept by every `update` holds after every sequence of calls. -/
theorem GSharePlus.plus_run_induction (P : GSharePlus → Prop)
    (step : ∀ s PC T t, P s → P (s.update PC T t)) :
    ∀ (cs : List Call) (s : GSharePlus), P s → P (s.run cs) := by
  intro cs
  induction cs with
  | nil => intro s h; exact h
  | cons c cs ih => intro s h; exact ih _ (step s c.1 c.2.1 c.2.2 h)

theorem GSharePlus.plus_Inv_new (B H : Nat) : GSharePlus.Inv B H (GSharePlus.new B H) where
  BTB_length := by simp [GSharePlus.new]
  PHT_length := by simp [GSharePlus.new]
  LPHT_length := by
    show (List.replicate (shl1 8) 0).length = 256
    rw [List.length_replicate]
    decide
  LHT_length := by simp [GSharePlus.new]
  Meta_length := by simp [GSharePlus.new]
  BHR := rfl
  BTB_shift := rfl
  BTB_mask := rfl
  BHR_mask := rfl
  LPHT_mask := by
    show shl1 8 - 1 = 255
    decide
  LHT_mask := by
    show shl1 8 - 1 = 255
    decide
  PHT_le := by
    intro c hc
    have := List.eq_of_mem_replicate hc
    omega
  LPHT_le := by
    intro c hc
    have := List.eq_of_mem_replicate hc
    omega
  Meta_le := by
    intro c hc
    have := List.eq_of_mem_replicate hc
    omega
  LHT_le := by
    intro c hc
    have := List.eq_of_mem_replicate hc
    omega

theorem GSharePlus.plus_Inv_update (B H : Nat) (s : GSharePlus) (PC T : Nat) (t : Bool)
    (h : GSharePlus.Inv B H s) : GSharePlus.Inv B H (s.update PC T t) where
  BTB_length := by rw [GSharePlus.plus_update_BTB_length]; exact h.BTB_length
  PHT_length := by rw [GSharePlus.plus_update_PHT_length]; exact h.PHT_length
  LPHT_length := by rw [GSharePlus.update_LPHT_length]; exact h.LPHT_length
  LHT_length := by rw [GSharePlus.update_LHT_length]; exact h.LHT_length
  Meta_length := by rw [GSharePlus.update_Meta_length]; exact h.Meta_length
  BHR := h.BHR
  BTB_shift := h.BTB_shift
  BTB_mask := h.BTB_mask
  BHR_mask := h.BHR_mask
  LPHT_mask := h.LPHT_mask
  LHT_mask := h.LHT_mask
  PHT_le := by
    rw [GSharePlus.plus_update_PHT]
    apply forall_mem_set _ _ _ _ h.PHT_le
    exact satStep_le _ _ _ (getD_le_of_forall _ _ _ _ h.PHT_le (by decide))
  LPHT_le := by
    rw [GSharePlus.update_LPHT]
    apply forall_mem_set _ _ _ _ h.LPHT_le
    exact satStep_le _ _ _ (getD_le_of_forall _ _ _ _ h.LPHT_le (by decide))
  Meta_le := by
    have hm : s.MetaPredictor_.getD (s.btb_index PC) 4 ≤ 7 :=
      getD_le_of_forall _ _ _ _ h.Meta_le (by decide)
    rw [GSharePlus.update_Meta]
    split
    · split
      · split
        · apply forall_mem_set _ _ _ _ h.Meta_le
          omega
        · exact h.Meta_le
      · split
        · apply forall_mem_set _ _ _ _ h.Meta_le
          omega
        · exact h.Meta_le
    · exact h.Meta_le
  LHT_le := by
    rw [GSharePlus.update_LHT]
    apply forall_mem_set _ _ _ _ h.LHT_le
    rw [h.LHT_mask]
    exact Nat.and_le_right

theorem GSharePlus.plus_Inv_run (B H : Nat) (cs : List Call) :
    GSharePlus.Inv B H ((GSharePlus.new B H).run cs) :=
  GSharePlus.plus_run_induction (GSharePlus.Inv B H) (GSharePlus.plus_Inv_update B H) cs _
    (GSharePlus.plus_Inv_new B H)

/-! ## Indices stay inside their tables -/

theorem GShare.Inv.PHT_index_lt {B H : Nat} {s : GShare} (h : GShare.Inv B H s)
    (hH : H < 32) (PC : Nat) : s.PHT_index PC < s.PHT_.length := by
  have h1 : s.PHT_index PC ≤ s.BHR_mask_ := Nat.and_le_right
  rw [h.BHR_mask, BHR_mask_of_lt H hH] at h1
  rw [h.PHT_length, shl1_of_lt H hH]
  have := Nat.two_pow_pos H
  omega

theorem GShare.Inv.BTB_mask_eq {B H : Nat} {s : GShare} (h : GShare.Inv B H s)
    (hB : 0 < B) (hB32 : B ≤ 2 ^ 32) : s.BTB_mask_ = B - 1 := by
  rw [h.BTB_mask]
  omega

theorem GShare.Inv.update_btb_index_lt {B H : Nat} {s : GShare} (h : GShare.Inv B H s)
    (hB : 0 < B) (hB32 : B ≤ 2 ^ 32) (PC : Nat) :
    s.update_btb_index PC < s.BTB_.length := by
  have h1 : s.update_btb_index PC ≤ s.BTB_mask_ := Nat.and_le_right
  rw [h.BTB_mask_eq hB hB32] at h1
  rw [h.BTB_length]
  omega

theorem GSharePlus.Inv.plus_PHT_index_lt {B H : Nat} {s : GSharePlus} (h : GSharePlus.Inv B H s)
    (hH : H < 32) (PC : Nat) : s.PHT_index PC < s.PHT_.length := by
  have h1 : s.PHT_index PC ≤ s.BHR_mask_ := Nat.and_le_right
  rw [h.BHR_mask, BHR_mask_of_lt H hH] at h1
  rw [h.PHT_length, shl1_of_lt H hH]
  have := Nat.two_pow_pos H
  omega

theorem GSharePlus.Inv.btb_index_lt {B H : Nat} {s : GSharePlus} (h : GSharePlus.Inv B H s)
    (hB : 0 < B) (PC : Nat) : s.btb_index PC < B := by
  have h1 : s.btb_index PC ≤ s.BTB_mask_ := Nat.and_le_right
  rw [h.BTB_mask, if_pos hB] at h1
  omega

theorem GSharePlus.Inv.lpht_index_lt {B H : Nat} {s : GSharePlus} (h : GSharePlus.Inv B H s)
    (PC : Nat) : s.lpht_index PC < s.LPHT_.length := by
  have h1 : s.lpht_index PC ≤ s.LPHT_mask_ := Nat.and_le_right
  rw [h.LPHT_mask] at h1
  rw [h.LPHT_length]
  omega

/-! ## GShare: the effect of one `update` -/

theorem GShare.update_PHT (s : GShare) (PC T : Nat) (t : Bool) :
    (s.update PC T t).PHT_ =
      s.PHT_.set (s.PHT_index PC) (satStep 3 (s.PHT_.getD (s.PHT_index PC) 0) t) := rfl

theorem GShare.update_BHR (s : GShare) (PC T : Nat) (t : Bool) :
    (s.update PC T t).BHR_ = (((s.BHR_ <<< 1) % 2 ^ 32) ||| t.toNat) &&& s.BHR_mask_ := rfl

theorem GShare.update_BTB_taken (s : GShare) (PC T : Nat) :
    (s.update PC T true).BTB_ = s.BTB_.set (s.update_btb_index PC)
      { valid := true, target_PC := T, tag := s.tag PC } := rfl

theorem GShare.update_BTB_not_taken (s : GShare) (PC T : Nat) :
    (s.update PC T false).BTB_ = s.BTB_ := rfl

theorem GShare.run_replicate_succ (s : GShare) (c : Call) (n : Nat) :
    s.run (List.replicate (n + 1) c) = (s.run (List.replicate n c)).update c.1 c.2.1 c.2.2 := by
  rw [List.replicate_succ', GShare.run_append]
  rfl

/-- Right after `update(PC, T, true)`, a `predict(PC)` that resolves to taken
returns `T`, provided the BTB index of `PC` fits the 8-bit variable of
`predict`. -/
theorem GShare.predict_after_update {B H : Nat} {s : GShare} (h : GShare.Inv B H s)
    (hB : 0 < B) (hB32 : B ≤ 2 ^ 32) (PC T : Nat) (h8 : s.update_btb_index PC < 256)
    (ht : (s.update PC T true).predict_taken PC = true) :
    (s.update PC T true).predict PC = T := by
  have hlt := h.update_btb_index_lt hB hB32 PC
  have hidx : (s.update PC T true).predict_btb_index PC = s.update_btb_index PC := by
    show ((PC >>> 2) &&& s.BTB_mask_) % 2 ^ 8 = (PC >>> 2) &&& s.BTB_mask_
    exact Nat.mod_eq_of_lt h8
  have hread : (s.update PC T true).BTB_.getD (s.update_btb_index PC) BTB_empty
      = { valid := true, target_PC := T, tag := s.tag PC } := by
    rw [GShare.update_BTB_taken]
    exact getD_set_same _ _ _ _ hlt
  have htag : (s.update PC T true).tag PC = s.tag PC := rfl
  unfold GShare.predict
  simp only [ht, hidx, hread, htag]
  simp

/-- Shifting a one into a register that holds `j` ones, under a mask of `H`
bits: the 32-bit arithmetic of `BHR_ = ((BHR_ << 1) | taken) & BHR_mask_`. -/
theorem ones_step : ∀ H, H < 32 → ∀ j, j ≤ H →
    ((((2 ^ j - 1) <<< 1) % 2 ^ 32) ||| 1) &&& (2 ^ H - 1) = 2 ^ (min (j + 1) H) - 1 := by
  decide

/-- The history register after `j` taken branches from reset: `min j H` ones. -/
theorem GShare.BHR_after_taken (B H : Nat) (hH : H < 32) (PC T : Nat) (j : Nat) :
    ((GShare.new B H).run (List.replicate j (PC, T, true))).BHR_ = 2 ^ (min j H) - 1 := by
  induction j with
  | zero =>
    rw [Nat.zero_min]
    rfl
  | succ j ih =>
    have hinv := GShare.Inv_run B H (List.replicate j (PC, T, true))
    rw [GShare.run_replicate_succ, GShare.update_BHR, ih, hinv.BHR_mask, BHR_mask_of_lt H hH]
    show ((((2 ^ (min j H) - 1) <<< 1) % 2 ^ 32) ||| 1) &&& (2 ^ H - 1) = _
    rw [ones_step H hH (min j H) (Nat.min_le_right j H)]
    congr 2
    omega

/-- The PHT index of `PC` once the history register is full of ones. -/
theorem GShare.PHT_index_after_taken (B H : Nat) (hH : H < 32) (PC T : Nat) (j : Nat)
    (hj : H ≤ j) :
    ((GShare.new B H).run (List.replicate j (PC, T, true))).PHT_index PC
      = ((PC >>> 2) ^^^ (2 ^ H - 1)) &&& (2 ^ H - 1) := by
  have hinv := GShare.Inv_run B H (List.replicate j (PC, T, true))
  unfold GShare.PHT_index
  rw [GShare.BHR_after_taken B H hH, hinv.BHR_mask, BHR_mask_of_lt H hH, Nat.min_eq_right hj]

/-- After `H + k` taken branches at `PC` the counter that `predict(PC)` consults
is at least `min k 3`. -/
theorem GShare.counter_after_taken (B H : Nat) (hH : H < 32) (PC T : Nat) (k : Nat) :
    min k 3 ≤ ((GShare.new B H).run (List.replicate (H + k) (PC, T, true))).PHT_.getD
      (((PC >>> 2) ^^^ (2 ^ H - 1)) &&& (2 ^ H - 1)) 0 := by
  induction k with
  | zero => exact Nat.zero_le _
  | succ k ih =>
    have hinv := GShare.Inv_run B H (List.replicate (H + k) (PC, T, true))
    have hidx := GShare.PHT_index_after_taken B H hH PC T (H + k) (Nat.le_add_right H k)
    have hlt := hinv.PHT_index_lt hH PC
    rw [← Nat.add_assoc, GShare.run_replicate_succ, GShare.update_PHT]
    simp only [hidx] at hlt ⊢
    rw [getD_set_same _ _ _ _ hlt]
    unfold satStep
    simp only [if_true]
    split <;> omega

/-! ## C1: saturation of GShare under repeated taken branches -/

/-- C1, as stated, fails on the scenario the specification itself gives: with
`BTB_size = 4` and `BHR_size = 2`, after three calls `update(0x100, 0x200, true)`
from the freshly constructed state, `predict(0x100)` does not report taken and
returns `0x104`, not `0x200`.  Each of the first two updates shifts the history
register, so the three updates increment three different counters. -/
theorem GShare.three_taken_counterexample :
    ((GShare.new 4 2).run (List.replicate 3 (0x100, 0x200, true))).predict_taken 0x100 = false
    ∧ ((GShare.new 4 2).run (List.replicate 3 (0x100, 0x200, true))).predict 0x100 = 0x104
    ∧ ((GShare.new 4 2).run (List.replicate 3 (0x100, 0x200, true))).predict 0x100 ≠ 0x200 := by
  decide

/-- C1 (amended): for `0 < BTB_size ≤ 256` and `BHR_size = H < 32`, starting from
the freshly constructed state, for every PC, every target `T` and every
`N ≥ H + 2`, after `N` consecutive calls `update(PC, T, true)` a subsequent
`predict(PC)` reports taken and returns `T`. -/
theorem GShare.taken_run_predicts_target (B H : Nat) (hB : 0 < B) (hB256 : B ≤ 256)
    (hH : H < 32) (PC T N : Nat) (hN : H + 2 ≤ N) :
    ((GShare.new B H).run (List.replicate N (PC, T, true))).predict_taken PC = true
    ∧ ((GShare.new B H).run (List.replicate N (PC, T, true))).predict PC = T := by
  obtain ⟨k, rfl⟩ := Nat.exists_eq_add_of_le hN
  have hcnt := GShare.counter_after_taken B H hH PC T (2 + k)
  have hidx := GShare.PHT_index_after_taken B H hH PC T (H + (2 + k)) (Nat.le_add_right _ _)
  rw [Nat.add_assoc]
  have htaken :
      ((GShare.new B H).run (List.replicate (H + (2 + k)) (PC, T, true))).predict_taken PC
        = true := by
    unfold GShare.predict_taken
    rw [hidx]
    apply decide_eq_true
    omega
  refine ⟨htaken, ?_⟩
  have hsucc : H + (2 + k) = (H + 1 + k) + 1 := by omega
  rw [hsucc] at htaken ⊢
  rw [GShare.run_replicate_succ] at htaken ⊢
  have hinv := GShare.Inv_run B H (List.replicate (H + 1 + k) (PC, T, true))
  have hB32 : B ≤ 2 ^ 32 := Nat.le_trans hB256 (by decide)
  have h8 := hinv.update_btb_index_lt hB hB32 PC
  rw [hinv.BTB_length] at h8
  exact GShare.predict_after_update hinv hB hB32 PC T (by omega) htaken

/-- C1 (amended), at the configuration of the specification's scenario with one
more update: four calls `update(0x100, 0x200, true)`. -/
theorem GShare.taken_run_predicts_target_witness :
    (0 < 4 ∧ 4 ≤ 256 ∧ 2 < 32 ∧ 2 + 2 ≤ 4)
    ∧ ((GShare.new 4 2).run (List.replicate 4 (0x100, 0x200, true))).predict_taken 0x100 = true
    ∧ ((GShare.new 4 2).run (List.replicate 4 (0x100, 0x200, true))).predict 0x100 = 0x200 :=
  ⟨by decide,
    GShare.taken_run_predicts_target 4 2 (by decide) (by decide) (by decide) 0x100 0x200 4
      (by decide)⟩

/-! ## C2: BTB correctness of GShare -/

/-- C2 fails at `BTB_size = 512`, `BHR_size = 1`: in the state right after the
third call `update(0x400, 0x200, true)` from construction, `predict(0x400)`
resolves to taken, yet it returns `0x404`, not the trained target `0x200`.
`update` wrote `BTB_[256]`; `predict` keeps its index in a `uint8_t` and reads
`BTB_[0]`. -/
theorem GShare.predict_misses_trained_entry :
    ((((GShare.new 512 1).run (List.replicate 2 (0x400, 0x200, true))).update
        0x400 0x200 true).predict_taken 0x400 = true)
    ∧ ((((GShare.new 512 1).run (List.replicate 2 (0x400, 0x200, true))).update
        0x400 0x200 true).predict 0x400 = 0x404)
    ∧ ((((GShare.new 512 1).run (List.replicate 2 (0x400, 0x200, true))).update
        0x400 0x200 true).update_btb_index 0x400 = 256)
    ∧ ((((GShare.new 512 1).run (List.replicate 2 (0x400, 0x200, true))).update
        0x400 0x200 true).predict_btb_index 0x400 = 0) := by
  decide

/-! ## GSharePlus: the effect of one `update` -/

theorem GSharePlus.update_PHT_index (s : GSharePlus) (PC T : Nat) (t : Bool) (PC' : Nat) :
    (s.update PC T t).PHT_index PC' = s.PHT_index PC' := rfl

theorem GSharePlus.update_btb_index (s : GSharePlus) (PC T : Nat) (t : Bool) (PC' : Nat) :
    (s.update PC T t).btb_index PC' = s.btb_index PC' := rfl

theorem GSharePlus.run_PHT_index (cs : List Call) (s : GSharePlus) (PC : Nat) :
    (s.run cs).PHT_index PC = s.PHT_index PC := by
  induction cs generalizing s with
  | nil => rfl
  | cons c cs ih => rw [GSharePlus.plus_run_cons, ih, GSharePlus.update_PHT_index]

theorem GSharePlus.run_btb_index (cs : List Call) (s : GSharePlus) (PC : Nat) :
    (s.run cs).btb_index PC = s.btb_index PC := by
  induction cs generalizing s with
  | nil => rfl
  | cons c cs ih => rw [GSharePlus.plus_run_cons, ih, GSharePlus.update_btb_index]

theorem GSharePlus.plus_run_replicate_succ (s : GSharePlus) (c : Call) (n : Nat) :
    s.run (List.replicate (n + 1) c)
      = (s.run (List.replicate n c)).update c.1 c.2.1 c.2.2 := by
  rw [List.replicate_succ', GSharePlus.plus_run_append]
  rfl

/-- The global counter of `PC` after `update(PC, _, taken)`. -/
theorem GSharePlus.counter_after_update {B H : Nat} {s : GSharePlus}
    (h : GSharePlus.Inv B H s) (hH : H < 32) (PC T : Nat) (t : Bool) :
    (s.update PC T t).PHT_.getD (s.PHT_index PC) 0
      = satStep 3 (s.PHT_.getD (s.PHT_index PC) 0) t := by
  rw [GSharePlus.plus_update_PHT, GSharePlus.PHT_after]
  exact getD_set_same _ _ _ _ (h.plus_PHT_index_lt hH PC)

/-- The meta counter of the site of `PC` after `update(PC, _, taken)`. -/
theorem GSharePlus.meta_after_update {B H : Nat} {s : GSharePlus}
    (h : GSharePlus.Inv B H s) (hB : 0 < B) (PC T : Nat) (t : Bool) :
    (s.update PC T t).MetaPredictor_.getD (s.btb_index PC) 4 =
      if (s.gshare_correct PC t != s.local_correct PC t) = true then
        if s.gshare_correct PC t = true then
          (if s.MetaPredictor_.getD (s.btb_index PC) 4 < 7 then
            s.MetaPredictor_.getD (s.btb_index PC) 4 + 1
          else s.MetaPredictor_.getD (s.btb_index PC) 4)
        else s.MetaPredictor_.getD (s.btb_index PC) 4 - 1
      else s.MetaPredictor_.getD (s.btb_index PC) 4 := by
  have hlt : s.btb_index PC < s.MetaPredictor_.length := by
    rw [h.Meta_length]
    exact h.btb_index_lt hB PC
  rw [GSharePlus.update_Meta]
  split
  · split
    · split
      · exact getD_set_same _ _ _ _ hlt
      · rfl
    · split
      · exact getD_set_same _ _ _ _ hlt
      · omega
  · rfl

/-- Right after `update(PC, T, true)`, a `predict(PC)` whose selected direction
is taken returns `T`. -/
theorem GSharePlus.plus_predict_after_update {B H : Nat} {s : GSharePlus}
    (h : GSharePlus.Inv B H s) (hB : 0 < B) (PC T : Nat)
    (ht : (s.update PC T true).predict_taken PC = true) :
    (s.update PC T true).predict PC = T := by
  have hlt : s.btb_index PC < s.BTB_.length := by
    rw [h.BTB_length]
    exact h.btb_index_lt hB PC
  have hread : (s.update PC T true).BTB_.getD (s.btb_index PC) BTB_empty
      = { valid := true, target_PC := T, tag := PC >>> s.BTB_shift_ } := by
    rw [GSharePlus.plus_update_BTB_taken]
    exact getD_set_same _ _ _ _ hlt
  unfold GSharePlus.predict
  simp only [ht, GSharePlus.update_btb_index, GSharePlus.plus_update_BTB_shift, hread]
  simp

/-! ## C3: saturation of GSharePlus under repeated taken branches -/

/-- The first `update(PC, T, true)` on a freshly constructed `GSharePlus`: the
global counter of `PC` becomes 1 and the meta counter of its site stays 4 (both
sub-predictors are judged wrong). -/
theorem GSharePlus.first_taken (B H : Nat) (hB : 0 < B) (hH : H < 32) (PC T : Nat) :
    ((GSharePlus.new B H).update PC T true).PHT_.getD ((GSharePlus.new B H).PHT_index PC) 0 = 1
    ∧ ((GSharePlus.new B H).update PC T true).MetaPredictor_.getD
        ((GSharePlus.new B H).btb_index PC) 4 = 4 := by
  have hinv := GSharePlus.plus_Inv_new B H
  have hP : (GSharePlus.new B H).PHT_.getD ((GSharePlus.new B H).PHT_index PC) 0 = 0 :=
    getD_replicate_same _ _ _
  have hL : (GSharePlus.new B H).LPHT_.getD ((GSharePlus.new B H).lpht_index PC) 0 = 0 :=
    getD_replicate_same _ _ _
  have hM : (GSharePlus.new B H).MetaPredictor_.getD ((GSharePlus.new B H).btb_index PC) 4 = 4 :=
    getD_replicate_same _ _ _
  have hg : (GSharePlus.new B H).gshare_correct PC true = false := by
    unfold GSharePlus.gshare_correct GSharePlus.PHT_after
    rw [getD_set_same _ _ _ _ (hinv.plus_PHT_index_lt hH PC), hP]
    rfl
  have hl : (GSharePlus.new B H).local_correct PC true = false := by
    unfold GSharePlus.local_correct GSharePlus.LPHT_after
    rw [getD_set_same _ _ _ _ (hinv.lpht_index_lt PC), hL]
    rfl
  constructor
  · rw [GSharePlus.counter_after_update hinv hH, hP]
    rfl
  · rw [GSharePlus.meta_after_update hinv hB, hg, hl, hM]
    rfl

/-- After `j + 1` calls `update(PC, T, true)` from construction: the global
counter of `PC` is `min (j + 1) 3` and the meta counter of its site is at
least 4. -/
theorem GSharePlus.taken_run_state (B H : Nat) (hB : 0 < B) (hH : H < 32) (PC T : Nat)
    (j : Nat) :
    ((GSharePlus.new B H).run (List.replicate (j + 1) (PC, T, true))).PHT_.getD
        ((GSharePlus.new B H).PHT_index PC) 0 = min (j + 1) 3
    ∧ 4 ≤ ((GSharePlus.new B H).run (List.replicate (j + 1) (PC, T, true))).MetaPredictor_.getD
        ((GSharePlus.new B H).btb_index PC) 4 := by
  induction j with
  | zero =>
    have h := GSharePlus.first_taken B H hB hH PC T
    rw [GSharePlus.plus_run_replicate_succ]
    exact ⟨h.1, Nat.le_of_eq h.2.symm⟩
  | succ j ih =>
    obtain ⟨ihc, ihm⟩ := ih
    have hinv := GSharePlus.plus_Inv_run B H (List.replicate (j + 1) (PC, T, true))
    have hpi := GSharePlus.run_PHT_index (List.replicate (j + 1) (PC, T, true))
      (GSharePlus.new B H) PC
    have hbi := GSharePlus.run_btb_index (List.replicate (j + 1) (PC, T, true))
      (GSharePlus.new B H) PC
    have hc := GSharePlus.counter_after_update hinv hH PC T true
    have hm := GSharePlus.meta_after_update hinv hB PC T true
    rw [hpi, ihc] at hc
    have hc2 : satStep 3 (min (j + 1) 3) true = min (j + 1 + 1) 3 := by
      unfold satStep
      simp only [if_true]
      split <;> omega
    have hg : ((GSharePlus.new B H).run (List.replicate (j + 1) (PC, T, true))).gshare_correct
        PC true = true := by
      unfold GSharePlus.gshare_correct
      rw [← GSharePlus.plus_update_PHT _ PC T true, hpi, hc, hc2]
      have : 2 ≤ min (j + 1 + 1) 3 := by omega
      simp [this]
    rw [hbi, hg] at hm
    rw [GSharePlus.plus_run_replicate_succ (GSharePlus.new B H) (PC, T, true) (j + 1)]
    refine ⟨by rw [hc, hc2], ?_⟩
    show 4 ≤ (((GSharePlus.new B H).run (List.replicate (j + 1) (PC, T, true))).update
      PC T true).MetaPredictor_.getD ((GSharePlus.new B H).btb_index PC) 4
    rw [hm]
    simp only [if_true]
    split
    · split <;> omega
    · exact ihm

/-- C3: starting from the freshly constructed `GSharePlus` (all counters 0, meta
counters 4; `BTB_size > 0`, `BHR_size < 32`), for every PC, every target `T` and
every `N ≥ 2`, after `N` consecutive calls `update(PC, T, true)` the global PHT
counter for `PC` equals `min N 3`, the meta counter of the site of `PC` is still
at least 4, and `predict(PC)` returns `T`. -/
theorem GSharePlus.plus_taken_run_predicts_target (B H : Nat) (hB : 0 < B) (hH : H < 32)
    (PC T N : Nat) (hN : 2 ≤ N) :
    ((GSharePlus.new B H).run (List.replicate N (PC, T, true))).PHT_.getD
        (((GSharePlus.new B H).run (List.replicate N (PC, T, true))).PHT_index PC) 0 = min N 3
    ∧ 4 ≤ ((GSharePlus.new B H).run (List.replicate N (PC, T, true))).MetaPredictor_.getD
        (((GSharePlus.new B H).run (List.replicate N (PC, T, true))).btb_index PC) 4
    ∧ ((GSharePlus.new B H).run (List.replicate N (PC, T, true))).predict PC = T := by
  obtain ⟨j, rfl⟩ : ∃ j, N = j + 1 := ⟨N - 1, by omega⟩
  obtain ⟨hc, hm⟩ := GSharePlus.taken_run_state B H hB hH PC T j
  have hpi := GSharePlus.run_PHT_index (List.replicate (j + 1) (PC, T, true))
    (GSharePlus.new B H) PC
  have hbi := GSharePlus.run_btb_index (List.replicate (j + 1) (PC, T, true))
    (GSharePlus.new B H) PC
  rw [hpi, hbi]
  refine ⟨hc, hm, ?_⟩
  have htaken :
      ((GSharePlus.new B H).run (List.replicate (j + 1) (PC, T, true))).predict_taken PC
        = true := by
    unfold GSharePlus.predict_taken GSharePlus.use_gshare GSharePlus.gshare_pred
    have h2 : 2 ≤ min (j + 1) 3 := by omega
    rw [hpi, hbi, hc, decide_eq_true hm, if_pos rfl]
    exact decide_eq_true h2
  rw [GSharePlus.plus_run_replicate_succ] at htaken ⊢
  exact GSharePlus.plus_predict_after_update (GSharePlus.plus_Inv_run B H _) hB PC T htaken

/-- C3 at `BTB_size = 4`, `BHR_size = 2`: two calls `update(0x100, 0x200, true)`. -/
theorem GSharePlus.plus_taken_run_predicts_target_witness :
    (0 < 4 ∧ 2 < 32 ∧ 2 ≤ 2)
    ∧ ((GSharePlus.new 4 2).run (List.replicate 2 (0x100, 0x200, true))).PHT_.getD
        (((GSharePlus.new 4 2).run (List.replicate 2 (0x100, 0x200, true))).PHT_index 0x100) 0
        = min 2 3
    ∧ 4 ≤ ((GSharePlus.new 4 2).run (List.replicate 2 (0x100, 0x200, true))).MetaPredictor_.getD
        (((GSharePlus.new 4 2).run (List.replicate 2 (0x100, 0x200, true))).btb_index 0x100) 4
    ∧ ((GSharePlus.new 4 2).run (List.replicate 2 (0x100, 0x200, true))).predict 0x100 = 0x200 :=
  ⟨by decide,
    GSharePlus.plus_taken_run_predicts_target 4 2 (by decide) (by decide) 0x100 0x200 2 (by decide)⟩

/-! ## C4: BTB correctness of GSharePlus -/

/-- C4: for every non-zero `BTB_size` (in particular every power of two), every
state reachable from construction and every `PC` and `T`, in the state right
after `update(PC, T, true)`, if the direction selected by `predict(PC)` is taken
then `predict(PC)` returns `T`. -/
theorem GSharePlus.btb_correct (B H : Nat) (hB : 0 < B) (calls : List Call) (PC T : Nat)
    (ht : (((GSharePlus.new B H).run calls).update PC T true).predict_taken PC = true) :
    (((GSharePlus.new B H).run calls).update PC T true).predict PC = T :=
  GSharePlus.plus_predict_after_update (GSharePlus.plus_Inv_run B H calls) hB PC T ht

/-- C4 at `BTB_size = 4`, `BHR_size = 2`, in the state reached by one call
`update(0x100, 0x300, true)`, for `update(0x100, 0x200, true)`. -/
theorem GSharePlus.btb_correct_witness :
    (((GSharePlus.new 4 2).run [(0x100, 0x300, true)]).update 0x100 0x200 true).predict_taken
        0x100 = true
    ∧ (((GSharePlus.new 4 2).run [(0x100, 0x300, true)]).update 0x100 0x200 true).predict
        0x100 = 0x200 :=
  ⟨by decide,
    GSharePlus.btb_correct 4 2 (by decide) [(0x100, 0x300, true)] 0x100 0x200 (by decide)⟩

/-! ## C5: a colliding PC after training -/

/-- C5 fails for `GShare` at `BTB_size = 512`, `BHR_size = 1`.  The word-aligned
addresses `0xC00` and `0x400` are distinct and map to the same BTB index 256.
In the state reached by three calls `update(0x0, 0x80, true)`, right after
`update(0xC00, 0x200, true)`, the call `predict(0x400)` returns `0x80`, not
`0x404`: `predict` truncates the index 256 to a `uint8_t`, reads `BTB_[0]`, and
finds there a valid entry with the tag of `0x400`. -/
theorem GShare.colliding_predict_leaves_fallback :
    (0xC00 % 4 = 0 ∧ 0x400 % 4 = 0 ∧ 0xC00 ≠ 0x400)
    ∧ (((GShare.new 512 1).run (List.replicate 3 (0x0, 0x80, true))).update_btb_index 0xC00 = 256)
    ∧ (((GShare.new 512 1).run (List.replicate 3 (0x0, 0x80, true))).update_btb_index 0x400 = 256)
    ∧ ((((GShare.new 512 1).run (List.replicate 3 (0x0, 0x80, true))).update
        0xC00 0x200 true).predict 0x400 = 0x80)
    ∧ ((((GShare.new 512 1).run (List.replicate 3 (0x0, 0x80, true))).update
        0xC00 0x200 true).predict 0x400 ≠ (0x400 + 4) % 2 ^ 32) := by
  decide

/-- A word-aligned address is determined by its BTB index and the tag
`PC >> k` of `GSharePlus`, for a BTB of `2 ^ k` entries. -/
theorem aligned_eq_of_index_of_tag (k PC PC' : Nat) (h4 : PC % 4 = 0) (h4' : PC' % 4 = 0)
    (hi : (PC >>> 2) &&& (2 ^ k - 1) = (PC' >>> 2) &&& (2 ^ k - 1))
    (ht : PC >>> k = PC' >>> k) : PC = PC' := by
  rw [Nat.and_pow_two_sub_one_eq_mod, Nat.and_pow_two_sub_one_eq_mod,
    Nat.shiftRight_eq_div_pow, Nat.shiftRight_eq_div_pow] at hi
  rw [Nat.shiftRight_eq_div_pow, Nat.shiftRight_eq_div_pow] at ht
  have e : ∀ x : Nat, x / 2 ^ k / 4 = x / 2 ^ 2 / 2 ^ k := by
    intro x
    rw [Nat.div_div_eq_div_mul, Nat.div_div_eq_div_mul, Nat.mul_comm]
    rfl
  have hq : PC / 2 ^ 2 / 2 ^ k = PC' / 2 ^ 2 / 2 ^ k := by
    rw [← e, ← e, ht]
  have h1 := Nat.div_add_mod (PC / 2 ^ 2) (2 ^ k)
  have h2 := Nat.div_add_mod (PC' / 2 ^ 2) (2 ^ k)
  rw [hq, hi] at h1
  have hw : PC / 2 ^ 2 = PC' / 2 ^ 2 := h1.symm.trans h2
  have : (2:Nat) ^ 2 = 4 := rfl
  rw [this] at hw
  omega

/-- A word-aligned address is determined by its BTB index and the tag
`(PC >> 2) >> k` of `GShare`, for a BTB of `2 ^ k` entries. -/
theorem word_eq_of_index_of_tag (k PC PC' : Nat) (h4 : PC % 4 = 0) (h4' : PC' % 4 = 0)
    (hi : (PC >>> 2) &&& (2 ^ k - 1) = (PC' >>> 2) &&& (2 ^ k - 1))
    (ht : (PC >>> 2) >>> k = (PC' >>> 2) >>> k) : PC = PC' := by
  rw [Nat.and_pow_two_sub_one_eq_mod, Nat.and_pow_two_sub_one_eq_mod,
    Nat.shiftRight_eq_div_pow, Nat.shiftRight_eq_div_pow] at hi
  rw [Nat.shiftRight_eq_div_pow, Nat.shiftRight_eq_div_pow, Nat.shiftRight_eq_div_pow,
    Nat.shiftRight_eq_div_pow] at ht
  have h1 := Nat.div_add_mod (PC / 2 ^ 2) (2 ^ k)
  have h2 := Nat.div_add_mod (PC' / 2 ^ 2) (2 ^ k)
  rw [ht, hi] at h1
  have hw : PC / 2 ^ 2 = PC' / 2 ^ 2 := h1.symm.trans h2
  have : (2:Nat) ^ 2 = 4 := rfl
  rw [this] at hw
  omega

/-- Supporting fact for the tournament predictor, `BTB_size = 2 ^ k`: right
after `update(PC, T, true)`, `predict(PC')` for a distinct word-aligned `PC'` of
the same BTB index returns `PC' + 4`. -/
theorem GSharePlus.plus_collision_falls_back (k H : Nat) (hk : k < 32) (calls : List Call)
    (PC PC' T : Nat) (h4 : PC % 4 = 0) (h4' : PC' % 4 = 0) (hne : PC ≠ PC')
    (hidx : ((GSharePlus.new (2 ^ k) H).run calls).btb_index PC
      = ((GSharePlus.new (2 ^ k) H).run calls).btb_index PC') :
    (((GSharePlus.new (2 ^ k) H).run calls).update PC T true).predict PC'
      = (PC' + 4) % 2 ^ 32 := by
  have hinv := GSharePlus.plus_Inv_run (2 ^ k) H calls
  have hB : 0 < 2 ^ k := Nat.two_pow_pos k
  have hshift : ((GSharePlus.new (2 ^ k) H).run calls).BTB_shift_ = k := by
    rw [hinv.BTB_shift, log2ceil_two_pow k hk]
  have hmask : ((GSharePlus.new (2 ^ k) H).run calls).BTB_mask_ = 2 ^ k - 1 := by
    rw [hinv.BTB_mask, if_pos hB]
  have hlt : ((GSharePlus.new (2 ^ k) H).run calls).btb_index PC
      < ((GSharePlus.new (2 ^ k) H).run calls).BTB_.length := by
    rw [hinv.BTB_length]
    exact hinv.btb_index_lt hB PC
  have hread : (((GSharePlus.new (2 ^ k) H).run calls).update PC T true).BTB_.getD
      (((GSharePlus.new (2 ^ k) H).run calls).btb_index PC') BTB_empty
      = { valid := true, target_PC := T, tag := PC >>> k } := by
    rw [GSharePlus.plus_update_BTB_taken, ← hidx, hshift]
    exact getD_set_same _ _ _ _ hlt
  have htag : ¬ (PC >>> k = PC' >>> k) := by
    intro ht
    apply hne
    unfold GSharePlus.btb_index at hidx
    rw [hmask] at hidx
    exact aligned_eq_of_index_of_tag k PC PC' h4 h4' hidx ht
  unfold GSharePlus.predict
  simp only [GSharePlus.update_btb_index, GSharePlus.plus_update_BTB_shift, hread, hshift,
    decide_eq_false htag, Bool.and_false]
  split <;> simp

/-- Supporting fact for `GShare` with `BTB_size = 2 ^ k ≤ 256`: right after
`update(PC, T, true)`, `predict(PC')` for a distinct word-aligned `PC'` of the
same BTB index returns `PC' + 4`. -/
theorem GShare.collision_falls_back (k H : Nat) (hk : k ≤ 8) (calls : List Call)
    (PC PC' T : Nat) (h4 : PC % 4 = 0) (h4' : PC' % 4 = 0) (hne : PC ≠ PC')
    (hidx : ((GShare.new (2 ^ k) H).run calls).update_btb_index PC
      = ((GShare.new (2 ^ k) H).run calls).update_btb_index PC') :
    (((GShare.new (2 ^ k) H).run calls).update PC T true).predict PC'
      = (PC' + 4) % 2 ^ 32 := by
  have hinv := GShare.Inv_run (2 ^ k) H calls
  have hB : 0 < 2 ^ k := Nat.two_pow_pos k
  have hB256 : 2 ^ k ≤ 2 ^ 8 := Nat.pow_le_pow_right (by decide) hk
  have hB32 : 2 ^ k ≤ 2 ^ 32 := Nat.pow_le_pow_right (by decide) (by omega)
  have hshift : ((GShare.new (2 ^ k) H).run calls).BTB_shift_ = k := by
    rw [hinv.BTB_shift, log2ceil_two_pow k (by omega)]
  have hmask := hinv.BTB_mask_eq hB hB32
  have hlt := hinv.update_btb_index_lt hB hB32 PC
  have hlt' := hinv.update_btb_index_lt hB hB32 PC'
  rw [hinv.BTB_length] at hlt'
  have hpi : (((GShare.new (2 ^ k) H).run calls).update PC T true).predict_btb_index PC'
      = ((GShare.new (2 ^ k) H).run calls).update_btb_index PC' := by
    show ((PC' >>> 2) &&& ((GShare.new (2 ^ k) H).run calls).BTB_mask_) % 2 ^ 8
      = ((GShare.new (2 ^ k) H).run calls).update_btb_index PC'
    exact Nat.mod_eq_of_lt (Nat.lt_of_lt_of_le hlt' hB256)
  have hread : (((GShare.new (2 ^ k) H).run calls).update PC T true).BTB_.getD
      (((GShare.new (2 ^ k) H).run calls).update_btb_index PC') BTB_empty
      = { valid := true, target_PC := T,
          tag := ((GShare.new (2 ^ k) H).run calls).tag PC } := by
    rw [GShare.update_BTB_taken, ← hidx]
    exact getD_set_same _ _ _ _ hlt
  have htag : ¬ (((GShare.new (2 ^ k) H).run calls).tag PC
      = (((GShare.new (2 ^ k) H).run calls).update PC T true).tag PC') := by
    intro ht
    apply hne
    unfold GShare.update_btb_index at hidx
    rw [hmask] at hidx
    have ht2 : (PC >>> 2) >>> k = (PC' >>> 2) >>> k := by
      have := ht
      unfold GShare.tag at this
      rw [GShare.update_BTB_shift, hshift] at this
      exact this
    exact word_eq_of_index_of_tag k PC PC' h4 h4' hidx ht2
  unfold GShare.predict
  simp only [hpi, hread, decide_eq_false htag, Bool.and_false]
  split <;> simp

/-! ## C6: the sequential fallback -/

theorem GShare.predict_not_taken (s : GShare) (PC : Nat) (h : s.predict_taken PC = false) :
    s.predict PC = (PC + 4) % 2 ^ 32 := by
  unfold GShare.predict
  simp [h]

theorem GSharePlus.plus_predict_not_taken (s : GSharePlus) (PC : Nat)
    (h : s.predict_taken PC = false) : s.predict PC = (PC + 4) % 2 ^ 32 := by
  unfold GSharePlus.predict
  simp [h]

/-- An entry read from the BTB is an entry of the BTB or the (invalid) entry
the table was filled with. -/
theorem BTB_getD_cases (l : List BTB_entry_t) (i : Nat) :
    l.getD i BTB_empty ∈ l ∨ l.getD i BTB_empty = BTB_empty := by
  rw [List.getD_eq_getElem?_getD]
  cases h : l[i]? with
  | none => exact Or.inr rfl
  | some a => exact Or.inl (List.getElem?_mem h)

theorem GShare.predict_no_entry (s : GShare) (PC : Nat)
    (h : ∀ e ∈ s.BTB_, ¬ (e.valid = true ∧ e.tag = s.tag PC)) :
    s.predict PC = (PC + 4) % 2 ^ 32 := by
  have hmiss : ((s.BTB_.getD (s.predict_btb_index PC) BTB_empty).valid
      && decide ((s.BTB_.getD (s.predict_btb_index PC) BTB_empty).tag = s.tag PC)) = false := by
    rcases BTB_getD_cases s.BTB_ (s.predict_btb_index PC) with hm | hm
    · have := h _ hm
      cases hv : (s.BTB_.getD (s.predict_btb_index PC) BTB_empty).valid
      · rfl
      · simp only [Bool.true_and, decide_eq_false_iff_not]
        exact fun ht => this ⟨hv, ht⟩
    · rw [hm]
      rfl
  unfold GShare.predict
  simp only [hmiss]
  split <;> rfl

theorem GSharePlus.plus_predict_no_entry (s : GSharePlus) (PC : Nat)
    (h : ∀ e ∈ s.BTB_, ¬ (e.valid = true ∧ e.tag = PC >>> s.BTB_shift_)) :
    s.predict PC = (PC + 4) % 2 ^ 32 := by
  have hmiss : ((s.BTB_.getD (s.btb_index PC) BTB_empty).valid
      && decide ((s.BTB_.getD (s.btb_index PC) BTB_empty).tag = PC >>> s.BTB_shift_))
        = false := by
    rcases BTB_getD_cases s.BTB_ (s.btb_index PC) with hm | hm
    · have := h _ hm
      cases hv : (s.BTB_.getD (s.btb_index PC) BTB_empty).valid
      · rfl
      · simp only [Bool.true_and, decide_eq_false_iff_not]
        exact fun ht => this ⟨hv, ht⟩
    · rw [hm]
      rfl
  unfold GSharePlus.predict
  simp only [hmiss]
  split <;> rfl

theorem GShare.new_predict_taken (B H PC : Nat) : (GShare.new B H).predict_taken PC = false := by
  unfold GShare.predict_taken
  have : (GShare.new B H).PHT_.getD ((GShare.new B H).PHT_index PC) 0 = 0 :=
    getD_replicate_same _ _ _
  rw [this]
  rfl

theorem GSharePlus.plus_new_predict_taken (B H PC : Nat) :
    (GSharePlus.new B H).predict_taken PC = false := by
  unfold GSharePlus.predict_taken GSharePlus.gshare_pred GSharePlus.local_pred
  have hP : (GSharePlus.new B H).PHT_.getD ((GSharePlus.new B H).PHT_index PC) 0 = 0 :=
    getD_replicate_same _ _ _
  have hL : (GSharePlus.new B H).LPHT_.getD ((GSharePlus.new B H).lpht_index PC) 0 = 0 :=
    getD_replicate_same _ _ _
  rw [hP, hL]
  split <;> rfl

/-- C6: in every state of either predictor, if the predicted direction for `PC`
is not-taken, or no BTB entry is both valid and carries the tag of `PC`, then
`predict(PC) = PC + 4` (mod `2 ^ 32`); and every `predict` call on a freshly
constructed predictor returns `PC + 4`. -/
theorem fallback_correct :
    (∀ (s : GShare) (PC : Nat),
      (s.predict_taken PC = false ∨ ∀ e ∈ s.BTB_, ¬ (e.valid = true ∧ e.tag = s.tag PC)) →
        s.predict PC = (PC + 4) % 2 ^ 32)
    ∧ (∀ (s : GSharePlus) (PC : Nat),
      (s.predict_taken PC = false
        ∨ ∀ e ∈ s.BTB_, ¬ (e.valid = true ∧ e.tag = PC >>> s.BTB_shift_)) →
        s.predict PC = (PC + 4) % 2 ^ 32)
    ∧ (∀ B H PC : Nat, (GShare.new B H).predict PC = (PC + 4) % 2 ^ 32)
    ∧ (∀ B H PC : Nat, (GSharePlus.new B H).predict PC = (PC + 4) % 2 ^ 32) := by
  refine ⟨?_, ?_, ?_, ?_⟩
  · intro s PC h
    rcases h with h | h
    · exact GShare.predict_not_taken s PC h
    · exact GShare.predict_no_entry s PC h
  · intro s PC h
    rcases h with h | h
    · exact GSharePlus.plus_predict_not_taken s PC h
    · exact GSharePlus.plus_predict_no_entry s PC h
  · intro B H PC
    exact GShare.predict_not_taken _ PC (GShare.new_predict_taken B H PC)
  · intro B H PC
    exact GSharePlus.plus_predict_not_taken _ PC (GSharePlus.plus_new_predict_taken B H PC)

/-- C6 at two trained states whose direction for the queried PC is taken while
no BTB entry carries its tag: `GShare` (`BTB_size = 4`, `BHR_size = 1`) after
three calls `update(0x100, 0x200, true)`, queried at `0x110`; `GSharePlus`
(`BTB_size = 4`, `BHR_size = 1`) after two such calls, queried at `0x110`. -/
theorem fallback_correct_witness :
    (((GShare.new 4 1).run (List.replicate 3 (0x100, 0x200, true))).predict_taken 0x110 = true
      ∧ ((GShare.new 4 1).run (List.replicate 3 (0x100, 0x200, true))).predict 0x110
          = (0x110 + 4) % 2 ^ 32)
    ∧ (((GSharePlus.new 4 1).run (List.replicate 2 (0x100, 0x200, true))).predict_taken 0x110
          = true
      ∧ ((GSharePlus.new 4 1).run (List.replicate 2 (0x100, 0x200, true))).predict 0x110
          = (0x110 + 4) % 2 ^ 32) :=
  ⟨⟨by decide, fallback_correct.1 _ 0x110 (Or.inr (by decide))⟩,
    ⟨by decide, fallback_correct.2.1 _ 0x110 (Or.inr (by decide))⟩⟩

/-! ## C7: ranges of counters and history registers -/

/-- C7: in every state reachable from construction by any sequence of `update`
calls, for both predictors: every global PHT counter and every local PHT counter
is at most 3, every meta-predictor counter is at most 7, the global history
register is below `2 ^ BHR_size`, and every local history register is below
`2 ^ 8` (all values are unsigned, so the lower bound 0 is built in). -/
theorem range_invariant (B H : Nat) (calls : List Call) :
    ((∀ c ∈ ((GShare.new B H).run calls).PHT_, c ≤ 3)
      ∧ ((GShare.new B H).run calls).BHR_ < 2 ^ H)
    ∧ ((∀ c ∈ ((GSharePlus.new B H).run calls).PHT_, c ≤ 3)
      ∧ (∀ c ∈ ((GSharePlus.new B H).run calls).LPHT_, c ≤ 3)
      ∧ (∀ m ∈ ((GSharePlus.new B H).run calls).MetaPredictor_, m ≤ 7)
      ∧ ((GSharePlus.new B H).run calls).BHR_ < 2 ^ H
      ∧ (∀ h ∈ ((GSharePlus.new B H).run calls).LHT_, h < 2 ^ 8)) := by
  have hg := GShare.Inv_run B H calls
  have hp := GSharePlus.plus_Inv_run B H calls
  refine ⟨⟨hg.PHT_le, ?_⟩, hp.PHT_le, hp.LPHT_le, hp.Meta_le, ?_, ?_⟩
  · have h1 := hg.BHR_le
    rw [hg.BHR_mask] at h1
    exact Nat.lt_of_le_of_lt h1 (BHR_mask_lt H)
  · rw [hp.BHR]
    exact Nat.two_pow_pos H
  · intro h hh
    have := hp.LHT_le h hh
    show h < 256
    omega

/-! ## C8: every index is inside its table -/

/-- Along a sequence of updates at one site in each of which the global
predictor is judged wrong and the local one right, the meta counter of the site
loses one per update until it reaches 0. -/
theorem GSharePlus.meta_after_localWins (B H : Nat) (hB : 0 < B) (site : Nat) :
    ∀ (seq : List Call) (s : GSharePlus), GSharePlus.Inv B H s →
      s.localWins site seq = true →
      (s.run seq).MetaPredictor_.getD site 4 = s.MetaPredictor_.getD site 4 - seq.length := by
  intro seq
  induction seq with
  | nil => intro s _ _; rfl
  | cons c cs ih =>
    intro s hinv hw
    unfold GSharePlus.localWins at hw
    simp only [Bool.and_eq_true, decide_eq_true_eq, Bool.not_eq_true'] at hw
    obtain ⟨⟨⟨hsite, hg⟩, hl⟩, hrest⟩ := hw
    have hm := GSharePlus.meta_after_update hinv hB c.1 c.2.1 c.2.2
    rw [hg, hl, hsite] at hm
    rw [GSharePlus.plus_run_cons, ih _ (GSharePlus.plus_Inv_update B H s _ _ _ hinv) hrest, hm]
    simp only [List.length_cons]
    have : (false != true) = true := rfl
    simp only [this, if_true]
    have hff : ¬ (false = true) := Bool.false_ne_true
    rw [if_neg hff]
    omega

/-- C9: for every state reachable from construction (`BTB_size > 0`) and every
sequence of `n` consecutive `update` calls whose PCs map to the same BTB index
`site`, if in each of them `update` judges the global sub-predictor wrong and
the local sub-predictor right, then the meta counter of the site after the
sequence equals `m0 - n` truncated at 0, where `m0` is its value before; and if
`n ≥ 8` it is 0, `use_gshare` is false for every PC of that site, and the
direction used by a following `predict(PC)` at that site is exactly the local
prediction `LPHT[LHT[site] & 0xFF] >= 2`. -/
theorem GSharePlus.meta_converges (B H : Nat) (hB : 0 < B) (calls seq : List Call)
    (site : Nat) (hw : ((GSharePlus.new B H).run calls).localWins site seq = true) :
    (((GSharePlus.new B H).run calls).run seq).MetaPredictor_.getD site 4
        = ((GSharePlus.new B H).run calls).MetaPredictor_.getD site 4 - seq.length
    ∧ (8 ≤ seq.length →
        (((GSharePlus.new B H).run calls).run seq).MetaPredictor_.getD site 4 = 0
        ∧ ∀ PC, (((GSharePlus.new B H).run calls).run seq).btb_index PC = site →
            (((GSharePlus.new B H).run calls).run seq).use_gshare PC = false
            ∧ (((GSharePlus.new B H).run calls).run seq).predict_taken PC
                = decide (2 ≤ (((GSharePlus.new B H).run calls).run seq).LPHT_.getD
                    ((((GSharePlus.new B H).run calls).run seq).LHT_.getD site 0 &&& 0xFF) 0)) := by
  have hinv := GSharePlus.plus_Inv_run B H calls
  have hmeta := GSharePlus.meta_after_localWins B H hB site seq _ hinv hw
  refine ⟨hmeta, ?_⟩
  intro hn
  have hm0 : ((GSharePlus.new B H).run calls).MetaPredictor_.getD site 4 ≤ 7 :=
    getD_le_of_forall _ _ _ _ hinv.Meta_le (by decide)
  have hzero : (((GSharePlus.new B H).run calls).run seq).MetaPredictor_.getD site 4 = 0 := by
    rw [hmeta]
    omega
  refine ⟨hzero, ?_⟩
  intro PC hPC
  have hinv2 : GSharePlus.Inv B H (((GSharePlus.new B H).run calls).run seq) := by
    rw [← GSharePlus.plus_run_append]
    exact GSharePlus.plus_Inv_run B H _
  have huse : (((GSharePlus.new B H).run calls).run seq).use_gshare PC = false := by
    unfold GSharePlus.use_gshare
    rw [hPC, hzero]
    rfl
  refine ⟨huse, ?_⟩
  unfold GSharePlus.predict_taken
  rw [huse]
  unfold GSharePlus.local_pred GSharePlus.lpht_index
  rw [hPC, hinv2.LPHT_mask]
  rfl

set_option maxRecDepth 100000 in
/-- C9 at `BTB_size = 1`, `BHR_size = 4`: after twelve calls
`update(0x0, 0x80, true)` (meta counter 7, local history all ones, its counter
saturated), eight taken branches at the addresses `0x4, 0x8, …, 0x20`, each
meeting a fresh global counter, are each judged "global wrong, local right";
the meta counter ends at 0 and `predict(0x4)` follows the local predictor. -/
theorem GSharePlus.meta_converges_witness :
    ((GSharePlus.new 1 4).run (List.replicate 12 (0x0, 0x80, true))).localWins 0
        [(0x4, 0x40, true), (0x8, 0x40, true), (0xC, 0x40, true), (0x10, 0x40, true),
         (0x14, 0x40, true), (0x18, 0x40, true), (0x1C, 0x40, true), (0x20, 0x40, true)] = true
    ∧ ((GSharePlus.new 1 4).run (List.replicate 12 (0x0, 0x80, true))).MetaPredictor_.getD 0 4 = 7
    ∧ (((GSharePlus.new 1 4).run (List.replicate 12 (0x0, 0x80, true))).run
        [(0x4, 0x40, true), (0x8, 0x40, true), (0xC, 0x40, true), (0x10, 0x40, true),
         (0x14, 0x40, true), (0x18, 0x40, true), (0x1C, 0x40, true), (0x20, 0x40, true)]
        ).MetaPredictor_.getD 0 4 = 0
    ∧ (((GSharePlus.new 1 4).run (List.replicate 12 (0x0, 0x80, true))).run
        [(0x4, 0x40, true), (0x8, 0x40, true), (0xC, 0x40, true), (0x10, 0x40, true),
         (0x14, 0x40, true), (0x18, 0x40, true), (0x1C, 0x40, true), (0x20, 0x40, true)]
        ).use_gshare 0x4 = false :=
  ⟨by decide, by decide,
    ((GSharePlus.meta_converges 1 4 (by decide) (List.replicate 12 (0x0, 0x80, true))
      [(0x4, 0x40, true), (0x8, 0x40, true), (0xC, 0x40, true), (0x10, 0x40, true),
       (0x14, 0x40, true), (0x18, 0x40, true), (0x1C, 0x40, true), (0x20, 0x40, true)]
      0 (by decide)).2 (by decide)).1,
    (((GSharePlus.meta_converges 1 4 (by decide) (List.replicate 12 (0x0, 0x80, true))
      [(0x4, 0x40, true), (0x8, 0x40, true), (0xC, 0x40, true), (0x10, 0x40, true),
       (0x14, 0x40, true), (0x18, 0x40, true), (0x1C, 0x40, true), (0x20, 0x40, true)]
      0 (by decide)).2 (by decide)).2 0x4 (by decide)).1⟩

/-! ## C10: `predict` against the reference arbitration -/

/-- C10: for every state of `GSharePlus` (with the local mask `0xFF` the
constructor sets) and every PC, `predict` equals the reference arbitration: with
`word = PC >> 2` and `btb_index = word & btb_mask`, the direction is
`PHT[(word ^ GHR) & history_mask] >= 2` when `MetaPredictor[btb_index] >= 4` and
`LPHT[LHT[btb_index] & 0xFF] >= 2` otherwise; the result is
`BTB[btb_index].target_PC` when that direction is taken and the entry is valid
with `tag == PC >> btb_shift`, and `PC + 4` (mod `2 ^ 32`) otherwise. -/
theorem GSharePlus.predict_eq_reference (s : GSharePlus) (PC : Nat)
    (hmask : s.LPHT_mask_ = 0xFF) : s.predict PC = s.predict_reference PC := by
  unfold GSharePlus.predict GSharePlus.predict_reference GSharePlus.predict_taken
    GSharePlus.use_gshare GSharePlus.gshare_pred GSharePlus.local_pred GSharePlus.lpht_index
    GSharePlus.PHT_index GSharePlus.btb_index
  rw [hmask]
  by_cases hm : 4 ≤ s.MetaPredictor_.getD ((PC >>> 2) &&& s.BTB_mask_) 4
  · by_cases hd : 2 ≤ s.PHT_.getD (((PC >>> 2) ^^^ s.BHR_) &&& s.BHR_mask_) 0
    · by_cases hv : (s.BTB_.getD ((PC >>> 2) &&& s.BTB_mask_) BTB_empty).valid = true
      · by_cases ht : (s.BTB_.getD ((PC >>> 2) &&& s.BTB_mask_) BTB_empty).tag
            = PC >>> s.BTB_shift_
        · simp [-List.getD_eq_getElem?_getD, hm, hd, hv, ht]
        · simp [-List.getD_eq_getElem?_getD, hm, hd, hv, ht]
      · simp [-List.getD_eq_getElem?_getD, hm, hd, hv]
    · simp [-List.getD_eq_getElem?_getD, hm, hd]
  · by_cases hd : 2 ≤ s.LPHT_.getD (s.LHT_.getD ((PC >>> 2) &&& s.BTB_mask_) 0 &&& 0xFF) 0
    · by_cases hv : (s.BTB_.getD ((PC >>> 2) &&& s.BTB_mask_) BTB_empty).valid = true
      · by_cases ht : (s.BTB_.getD ((PC >>> 2) &&& s.BTB_mask_) BTB_empty).tag
            = PC >>> s.BTB_shift_
        · simp [-List.getD_eq_getElem?_getD, hm, hd, hv, ht]
        · simp [-List.getD_eq_getElem?_getD, hm, hd, hv, ht]
      · simp [-List.getD_eq_getElem?_getD, hm, hd, hv]
    · simp [-List.getD_eq_getElem?_getD, hm, hd]

/-- C10 at a trained state (`BTB_size = 4`, `BHR_size = 2`, two calls
`update(0x100, 0x200, true)`), where both sides are the BTB target `0x200`. -/
theorem GSharePlus.predict_eq_reference_witness :
    ((GSharePlus.new 4 2).run (List.replicate 2 (0x100, 0x200, true))).LPHT_mask_ = 0xFF
    ∧ ((GSharePlus.new 4 2).run (List.replicate 2 (0x100, 0x200, true))).predict_reference 0x100
        = 0x200
    ∧ ((GSharePlus.new 4 2).run (List.replicate 2 (0x100, 0x200, true))).predict 0x100
        = ((GSharePlus.new 4 2).run (List.replicate 2 (0x100, 0x200, true))).predict_reference
            0x100 :=
  ⟨by decide, by decide,
    GSharePlus.predict_eq_reference _ 0x100 (by decide)⟩

/-! ## C11: the BTB is written by taken branches only -/

theorem getD_set {α : Type} (l : List α) (i j : Nat) (v d : α) :
    (l.set i v).getD j d = if i = j ∧ i < l.length then v else l.getD j d := by
  by_cases h : i = j
  · subst h
    by_cases hl : i < l.length
    · rw [if_pos ⟨rfl, hl⟩]
      exact getD_set_same l i v d hl
    · rw [if_neg (fun hh => hl hh.2)]
      have h1 : (l.set i v).length ≤ i := by
        rw [List.length_set]
        exact Nat.le_of_not_lt hl
      rw [List.getD_eq_default _ _ h1, List.getD_eq_default _ _ (Nat.le_of_not_lt hl)]
  · rw [if_neg (fun hh => h hh.1)]
    exact getD_set_other l i j v d h

/-- One `update` of `GShare` keeps every valid BTB entry valid. -/
theorem GShare.update_keeps_valid (s : GShare) (PC T : Nat) (t : Bool) (i : Nat)
    (h : (s.BTB_.getD i BTB_empty).valid = true) :
    ((s.update PC T t).BTB_.getD i BTB_empty).valid = true := by
  cases t
  · rw [GShare.update_BTB_not_taken]
    exact h
  · rw [GShare.update_BTB_taken, getD_set]
    split
    · rfl
    · exact h

/-- One `update` of `GSharePlus` keeps every valid BTB entry valid. -/
theorem GSharePlus.plus_update_keeps_valid (s : GSharePlus) (PC T : Nat) (t : Bool) (i : Nat)
    (h : (s.BTB_.getD i BTB_empty).valid = true) :
    ((s.update PC T t).BTB_.getD i BTB_empty).valid = true := by
  cases t
  · rw [GSharePlus.plus_update_BTB_not_taken]
    exact h
  · rw [GSharePlus.plus_update_BTB_taken, getD_set]
    split
    · rfl
    · exact h

/-- C11: for both predictors and every state, `update(PC, next_PC, false)` leaves
the BTB unchanged; `update(PC, next_PC, true)` leaves every entry other than the
one at `(PC >> 2) & btb_mask` unchanged and sets that one (when the index is
inside the table) to `{valid = true, target_PC = next_PC, tag}`; and along any
sequence of `update` calls a BTB entry that is valid stays valid. -/
theorem btb_training_frame :
    (∀ (s : GShare) (PC T : Nat),
      (s.update PC T false).BTB_ = s.BTB_
      ∧ (∀ j, j ≠ s.update_btb_index PC →
          (s.update PC T true).BTB_.getD j BTB_empty = s.BTB_.getD j BTB_empty)
      ∧ (s.update_btb_index PC < s.BTB_.length →
          (s.update PC T true).BTB_.getD (s.update_btb_index PC) BTB_empty
            = { valid := true, target_PC := T, tag := (PC >>> 2) >>> s.BTB_shift_ })
      ∧ (s.update PC T true).BTB_.length = s.BTB_.length)
    ∧ (∀ (s : GSharePlus) (PC T : Nat),
      (s.update PC T false).BTB_ = s.BTB_
      ∧ (∀ j, j ≠ s.btb_index PC →
          (s.update PC T true).BTB_.getD j BTB_empty = s.BTB_.getD j BTB_empty)
      ∧ (s.btb_index PC < s.BTB_.length →
          (s.update PC T true).BTB_.getD (s.btb_index PC) BTB_empty
            = { valid := true, target_PC := T, tag := PC >>> s.BTB_shift_ })
      ∧ (s.update PC T true).BTB_.length = s.BTB_.length)
    ∧ (∀ (s : GShare) (calls : List Call) (i : Nat),
        (s.BTB_.getD i BTB_empty).valid = true →
        ((s.run calls).BTB_.getD i BTB_empty).valid = true)
    ∧ (∀ (s : GSharePlus) (calls : List Call) (i : Nat),
        (s.BTB_.getD i BTB_empty).valid = true →
        ((s.run calls).BTB_.getD i BTB_empty).valid = true) := by
  refine ⟨?_, ?_, ?_, ?_⟩
  · intro s PC T
    refine ⟨rfl, ?_, ?_, GShare.update_BTB_length s PC T true⟩
    · intro j hj
      rw [GShare.update_BTB_taken]
      exact getD_set_other _ _ _ _ _ (Ne.symm hj)
    · intro hlt
      rw [GShare.update_BTB_taken]
      exact getD_set_same _ _ _ _ hlt
  · intro s PC T
    refine ⟨rfl, ?_, ?_, GSharePlus.plus_update_BTB_length s PC T true⟩
    · intro j hj
      rw [GSharePlus.plus_update_BTB_taken]
      exact getD_set_other _ _ _ _ _ (Ne.symm hj)
    · intro hlt
      rw [GSharePlus.plus_update_BTB_taken]
      exact getD_set_same _ _ _ _ hlt
  · intro s calls i h
    exact GShare.run_induction (fun st => (st.BTB_.getD i BTB_empty).valid = true)
      (fun st PC T t hst => GShare.update_keeps_valid st PC T t i hst) calls s h
  · intro s calls i h
    exact GSharePlus.plus_run_induction (fun st => (st.BTB_.getD i BTB_empty).valid = true)
      (fun st PC T t hst => GSharePlus.plus_update_keeps_valid st PC T t i hst) calls s h

/-- C11 at trained states (`BTB_size = 4`, `BHR_size = 2`, one call
`update(0x100, 0x200, true)`): the written entry of `update(0x104, 0x300, true)`
in both predictors, and the entry of `0x100` staying valid through two more
calls. -/
theorem btb_training_frame_witness :
    (((GShare.new 4 2).run [(0x100, 0x200, true)]).update 0x104 0x300 true).BTB_.getD
        (((GShare.new 4 2).run [(0x100, 0x200, true)]).update_btb_index 0x104) BTB_empty
      = { valid := true, target_PC := 0x300,
          tag := (0x104 >>> 2) >>> ((GShare.new 4 2).run [(0x100, 0x200, true)]).BTB_shift_ }
    ∧ (((GSharePlus.new 4 2).run [(0x100, 0x200, true)]).update 0x104 0x300 true).BTB_.getD
        (((GSharePlus.new 4 2).run [(0x100, 0x200, true)]).btb_index 0x104) BTB_empty
      = { valid := true, target_PC := 0x300,
          tag := 0x104 >>> ((GSharePlus.new 4 2).run [(0x100, 0x200, true)]).BTB_shift_ }
    ∧ ((((GShare.new 4 2).run [(0x100, 0x200, true)]).run
        [(0x100, 0x0, false), (0x104, 0x300, true)]).BTB_.getD 0 BTB_empty).valid = true
    ∧ ((((GSharePlus.new 4 2).run [(0x100, 0x200, true)]).run
        [(0x100, 0x0, false), (0x104, 0x300, true)]).BTB_.getD 0 BTB_empty).valid = true :=
  ⟨(btb_training_frame.1 _ 0x104 0x300).2.2.1 (by decide),
    (btb_training_frame.2.1 _ 0x104 0x300).2.2.1 (by decide),
    btb_training_frame.2.2.1 _ _ 0 (by decide),
    btb_training_frame.2.2.2 _ _ 0 (by decide)⟩

/-! ## C12: the history register of GShare holds the recent outcomes -/

/-- Under a mask of at most 32 bits the 32-bit wrap of the shifted register is
invisible. -/
theorem and_mask_wrap (x t m : Nat) (hm : m < 2 ^ 32) :
    ((x % 2 ^ 32) ||| t) &&& m = (x ||| t) &&& m := by
  apply Nat.eq_of_testBit_eq
  intro i
  rw [Nat.testBit_and, Nat.testBit_and, Nat.testBit_or, Nat.testBit_or,
    Nat.testBit_mod_two_pow]
  by_cases hi : i < 32
  · simp [hi]
  · have h1 : m < 2 ^ i :=
      Nat.lt_of_lt_of_le hm (Nat.pow_le_pow_right (by decide) (Nat.le_of_not_lt hi))
    rw [Nat.testBit_lt_two_pow h1, Bool.and_false, Bool.and_false]

/-- The counter step of the source, on a 2-bit counter, is the saturating step
of the specification. -/
theorem satStep_eq_min_max (c : Nat) (t : Bool) (hc : c ≤ 3) :
    satStep 3 c t = if t then min (c + 1) 3 else max (c - 1) 0 := by
  unfold satStep
  cases t
  · simp only [Bool.false_eq_true, if_false]
    split <;> omega
  · simp only [if_true]
    split <;> omega

/-- C13: for every state of `GShare` whose counters are 2-bit values and whose
history mask is a 32-bit value, and every `(PC, next_PC, taken)`, `update` equals
the reference update: the PHT changes only at `((PC >> 2) ^ GHR_old) &
history_mask`, where the counter `c` becomes `min(c + 1, 3)` if taken and
`max(c - 1, 0)` if not; GHR becomes `((GHR_old << 1) | taken) & history_mask`;
and the BTB changes only if taken, at `(PC >> 2) & btb_mask`, to
`{true, next_PC, (PC >> 2) >> btb_shift}`. -/
theorem GShare.update_eq_reference (s : GShare) (PC next_PC : Nat) (taken : Bool)
    (hc : ∀ c ∈ s.PHT_, c ≤ 3) (hm : s.BHR_mask_ < 2 ^ 32) :
    s.update PC next_PC taken = s.update_reference PC next_PC taken
    ∧ (∀ j, j ≠ s.PHT_index PC →
        (s.update PC next_PC taken).PHT_.getD j 0 = s.PHT_.getD j 0)
    ∧ (s.PHT_index PC < s.PHT_.length →
        (s.update PC next_PC taken).PHT_.getD (s.PHT_index PC) 0
          = if taken then min (s.PHT_.getD (s.PHT_index PC) 0 + 1) 3
            else max (s.PHT_.getD (s.PHT_index PC) 0 - 1) 0) := by
  have hcnt : s.PHT_.getD (s.PHT_index PC) 0 ≤ 3 :=
    getD_le_of_forall _ _ _ _ hc (by decide)
  have hstep := satStep_eq_min_max _ taken hcnt
  refine ⟨?_, ?_, ?_⟩
  · unfold GShare.update GShare.update_reference
    simp only [hstep, and_mask_wrap _ _ _ hm]
    rfl
  · intro j hj
    rw [GShare.update_PHT]
    exact getD_set_other _ _ _ _ _ (Ne.symm hj)
  · intro hlt
    rw [GShare.update_PHT, getD_set_same _ _ _ _ hlt]
    exact hstep

/-- C13 at a trained state (`BTB_size = 4`, `BHR_size = 2`, two calls
`update(0x100, 0x200, true)`), for the call `update(0x104, 0x300, false)`. -/
theorem GShare.update_eq_reference_witness :
    ((∀ c ∈ ((GShare.new 4 2).run (List.replicate 2 (0x100, 0x200, true))).PHT_, c ≤ 3)
      ∧ ((GShare.new 4 2).run (List.replicate 2 (0x100, 0x200, true))).BHR_mask_ < 2 ^ 32)
    ∧ ((GShare.new 4 2).run (List.replicate 2 (0x100, 0x200, true))).update 0x104 0x300 false
      = ((GShare.new 4 2).run (List.replicate 2 (0x100, 0x200, true))).update_reference
          0x104 0x300 false :=
  ⟨by decide,
    (GShare.update_eq_reference _ 0x104 0x300 false (by decide) (by decide)).1⟩

/-! ## C14: the meta-update rule of GSharePlus -/

/-- The local `gshare_correct` of `update`, read from the state after the call. -/
theorem GSharePlus.gshare_correct_eq (s : GSharePlus) (PC T : Nat) (t : Bool) :
    s.gshare_correct PC t
      = (decide (2 ≤ (s.update PC T t).PHT_.getD
          (((PC >>> 2) ^^^ s.BHR_) &&& s.BHR_mask_) 0) == t) := rfl

/-- The local `local_correct` of `update`, read from the state after the call at
the index given by the local history before the call. -/
theorem GSharePlus.local_correct_eq (s : GSharePlus) (PC T : Nat) (t : Bool)
    (hmask : s.LPHT_mask_ = 0xFF) :
    s.local_correct PC t
      = (decide (2 ≤ (s.update PC T t).LPHT_.getD
          (s.LHT_.getD (s.btb_index PC) 0 &&& 0xFF) 0) == t) := by
  unfold GSharePlus.local_correct
  rw [GSharePlus.update_LPHT]
  unfold GSharePlus.lpht_index
  rw [hmask]

/-- C14: for every state of `GSharePlus` (local mask `0xFF`, BTB index of `PC`
inside the meta table, meta counter of the site at most 7) and every
`(PC, next_PC, taken)`: with `p = ((PC >> 2) ^ GHR) & history_mask`,
`l = LHT_old[btb_index] & 0xFF`, `gshare_correct = (PHT_new[p] >= 2) == taken`
and `local_correct = (LPHT_new[l] >= 2) == taken` read from the already-updated
counters, `MetaPredictor[btb_index]` becomes `min(m + 1, 7)` if `gshare_correct`
and not `local_correct`, `max(m - 1, 0)` if `local_correct` and not
`gshare_correct`, and stays `m` otherwise; every other meta entry is unchanged. -/
theorem GSharePlus.meta_update_rule (s : GSharePlus) (PC next_PC : Nat) (taken : Bool)
    (hmask : s.LPHT_mask_ = 0xFF)
    (hlen : s.btb_index PC < s.MetaPredictor_.length)
    (hm : s.MetaPredictor_.getD (s.btb_index PC) 4 ≤ 7) :
    (s.update PC next_PC taken).MetaPredictor_.getD (s.btb_index PC) 4
      = (if ((decide (2 ≤ (s.update PC next_PC taken).PHT_.getD
                (((PC >>> 2) ^^^ s.BHR_) &&& s.BHR_mask_) 0) == taken)
              && !(decide (2 ≤ (s.update PC next_PC taken).LPHT_.getD
                (s.LHT_.getD (s.btb_index PC) 0 &&& 0xFF) 0) == taken)) = true then
          min (s.MetaPredictor_.getD (s.btb_index PC) 4 + 1) 7
        else if ((decide (2 ≤ (s.update PC next_PC taken).LPHT_.getD
                (s.LHT_.getD (s.btb_index PC) 0 &&& 0xFF) 0) == taken)
              && !(decide (2 ≤ (s.update PC next_PC taken).PHT_.getD
                (((PC >>> 2) ^^^ s.BHR_) &&& s.BHR_mask_) 0) == taken)) = true then
          max (s.MetaPredictor_.getD (s.btb_index PC) 4 - 1) 0
        else s.MetaPredictor_.getD (s.btb_index PC) 4)
    ∧ ∀ j, j ≠ s.btb_index PC →
        (s.update PC next_PC taken).MetaPredictor_.getD j 4 = s.MetaPredictor_.getD j 4 := by
  rw [← GSharePlus.gshare_correct_eq s PC next_PC taken,
    ← GSharePlus.local_correct_eq s PC next_PC taken hmask]
  constructor
  · rw [GSharePlus.update_Meta]
    cases hg : s.gshare_correct PC taken <;> cases hl : s.local_correct PC taken
    · rfl
    · rw [if_pos (show (false != true) = true from rfl), if_neg Bool.false_ne_true,
        if_neg (show ¬ ((false && !true) = true) from by decide),
        if_pos (show (true && !false) = true from rfl)]
      by_cases h0 : s.MetaPredictor_.getD (s.btb_index PC) 4 > 0
      · rw [if_pos h0, getD_set_same _ _ _ _ hlen]
        omega
      · rw [if_neg h0]
        omega
    · rw [if_pos (show (true != false) = true from rfl), if_pos rfl,
        if_pos (show (true && !false) = true from rfl)]
      by_cases h7 : s.MetaPredictor_.getD (s.btb_index PC) 4 < 7
      · rw [if_pos h7, getD_set_same _ _ _ _ hlen]
        omega
      · rw [if_neg h7]
        omega
    · rfl
  · intro j hj
    rw [GSharePlus.update_Meta]
    split
    · split
      · split
        · exact getD_set_other _ _ _ _ _ (Ne.symm hj)
        · rfl
      · split
        · exact getD_set_other _ _ _ _ _ (Ne.symm hj)
        · rfl
    · rfl

/-- C14 at `BTB_size = 4`, `BHR_size = 2`, for the second of two calls
`update(0x100, 0x200, true)`: the global predictor is judged right, the local
one wrong, and the meta counter of the site goes from 4 to 5 while the other
three stay. -/
theorem GSharePlus.meta_update_rule_witness :
    (((GSharePlus.new 4 2).run [(0x100, 0x200, true)]).LPHT_mask_ = 0xFF
      ∧ ((GSharePlus.new 4 2).run [(0x100, 0x200, true)]).btb_index 0x100
          < ((GSharePlus.new 4 2).run [(0x100, 0x200, true)]).MetaPredictor_.length
      ∧ ((GSharePlus.new 4 2).run [(0x100, 0x200, true)]).MetaPredictor_.getD
          (((GSharePlus.new 4 2).run [(0x100, 0x200, true)]).btb_index 0x100) 4 ≤ 7)
    ∧ (((GSharePlus.new 4 2).run [(0x100, 0x200, true)]).update 0x100 0x200
          true).MetaPredictor_.getD
        (((GSharePlus.new 4 2).run [(0x100, 0x200, true)]).btb_index 0x100) 4 = 5
    ∧ ∀ j, j ≠ ((GSharePlus.new 4 2).run [(0x100, 0x200, true)]).btb_index 0x100 →
        (((GSharePlus.new 4 2).run [(0x100, 0x200, true)]).update 0x100 0x200
            true).MetaPredictor_.getD j 4
          = ((GSharePlus.new 4 2).run [(0x100, 0x200, true)]).MetaPredictor_.getD j 4 :=
  ⟨by decide,
    (GSharePlus.meta_update_rule _ 0x100 0x200 true (by decide) (by decide)
      (by decide)).1.trans (by decide),
    (GSharePlus.meta_update_rule _ 0x100 0x200 true (by decide) (by decide)
      (by decide)).2⟩

/-! ## C15: GSharePlus never writes its history register -/

/-- C15: `GSharePlus.update` leaves the global history register unchanged for
every input, so in every state reachable from construction the register is 0 and
the index of the global sub-predictor is `(PC >> 2) & history_mask`, the same
for every sequence of calls: no outcome history enters the global prediction. -/
theorem GSharePlus.history_never_trained :
    (∀ (s : GSharePlus) (PC T : Nat) (t : Bool), (s.update PC T t).BHR_ = s.BHR_)
    ∧ (∀ (B H : Nat) (calls : List Call),
        ((GSharePlus.new B H).run calls).BHR_ = 0
        ∧ ∀ PC : Nat,
            ((GSharePlus.new B H).run calls).PHT_index PC
              = (PC >>> 2) &&& ((GSharePlus.new B H).run calls).BHR_mask_
            ∧ ((GSharePlus.new B H).run calls).PHT_index PC
              = (GSharePlus.new B H).PHT_index PC) := by
  refine ⟨fun s PC T t => rfl, ?_⟩
  intro B H calls
  have hinv := GSharePlus.plus_Inv_run B H calls
  refine ⟨hinv.BHR, ?_⟩
  intro PC
  refine ⟨?_, GSharePlus.run_PHT_index calls _ PC⟩
  unfold GSharePlus.PHT_index
  rw [hinv.BHR, Nat.xor_zero]

/-! ## C16: credit given on the already-updated counter -/

/-- C16: there is a reachable state of `GSharePlus` and an `update` call in which
the meta counter moves toward the global sub-predictor although the global
prediction made from the pre-update counter was wrong.  With `BTB_size = 4` and
`BHR_size = 2`, after one call `update(0x100, 0x200, true)` the global counter of
`0x100` is 1 (predicting not-taken) and the meta counter of its site is 4; the
second call `update(0x100, 0x200, true)` raises the meta counter to 5. -/
theorem GSharePlus.credit_misattribution :
    (((GSharePlus.new 4 2).run [(0x100, 0x200, true)]).PHT_.getD
        (((GSharePlus.new 4 2).run [(0x100, 0x200, true)]).PHT_index 0x100) 0 = 1
      ∧ ((GSharePlus.new 4 2).run [(0x100, 0x200, true)]).gshare_pred 0x100 = false
      ∧ ((GSharePlus.new 4 2).run [(0x100, 0x200, true)]).MetaPredictor_.getD
          (((GSharePlus.new 4 2).run [(0x100, 0x200, true)]).btb_index 0x100) 4 = 4
      ∧ (((GSharePlus.new 4 2).run [(0x100, 0x200, true)]).update 0x100 0x200
            true).MetaPredictor_.getD
          (((GSharePlus.new 4 2).run [(0x100, 0x200, true)]).btb_index 0x100) 4 = 5)
    ∧ ∃ (B H : Nat) (calls : List Call) (PC T : Nat) (t : Bool),
        ((GSharePlus.new B H).run calls).gshare_pred PC ≠ t
        ∧ ((GSharePlus.new B H).run calls).MetaPredictor_.getD
            (((GSharePlus.new B H).run calls).btb_index PC) 4
          < (((GSharePlus.new B H).run calls).update PC T t).MetaPredictor_.getD
              (((GSharePlus.new B H).run calls).btb_index PC) 4 :=
  ⟨by decide, 4, 2, [(0x100, 0x200, true)], 0x100, 0x200, true, by decide⟩

/-! ## C17: the exact warm-up of GShare -/

/-- The PHT index of `PC` after `j` taken branches from construction. -/
theorem GShare.PHT_index_taken_run (B H : Nat) (hH : H < 32) (PC T : Nat) (j : Nat) :
    ((GShare.new B H).run (List.replicate j (PC, T, true))).PHT_index PC
      = ((PC >>> 2) ^^^ (2 ^ (min j H) - 1)) &&& (2 ^ H - 1) := by
  have hinv := GShare.Inv_run B H (List.replicate j (PC, T, true))
  unfold GShare.PHT_index
  rw [GShare.BHR_after_taken B H hH, hinv.BHR_mask, BHR_mask_of_lt H hH]

/-- While the history register fills up, every update meets a new index: the
index after `N` ones differs from the index after `j < N` ones in bit `j`. -/
theorem xor_ones_ne (w H N j : Nat) (hj : j < N) (hN : N ≤ H) :
    (w ^^^ (2 ^ N - 1)) &&& (2 ^ H - 1) ≠ (w ^^^ (2 ^ j - 1)) &&& (2 ^ H - 1) := by
  intro h
  have hbit := congrArg (fun x => Nat.testBit x j) h
  simp only [Nat.testBit_and, Nat.testBit_xor, Nat.testBit_two_pow_sub_one] at hbit
  have h1 : decide (j < N) = true := decide_eq_true hj
  have h2 : decide (j < H) = true := decide_eq_true (Nat.lt_of_lt_of_le hj hN)
  have h3 : decide (j < j) = false := decide_eq_false (Nat.lt_irrefl j)
  rw [h1, h2, h3] at hbit
  cases hw : w.testBit j <;> rw [hw] at hbit <;> exact absurd hbit (by decide)

/-- After `N ≤ H` taken branches at `PC`, every counter outside the `N` indices
met so far is still 0. -/
theorem GShare.untouched_counter (B H : Nat) (hH : H < 32) (PC T : Nat) :
    ∀ N, N ≤ H → ∀ i, (∀ j, j < N → i ≠ ((PC >>> 2) ^^^ (2 ^ j - 1)) &&& (2 ^ H - 1)) →
      ((GShare.new B H).run (List.replicate N (PC, T, true))).PHT_.getD i 0 = 0 := by
  intro N
  induction N with
  | zero =>
    intro _ i _
    exact getD_replicate_same _ _ _
  | succ N ih =>
    intro hN i hi
    have hidx := GShare.PHT_index_taken_run B H hH PC T N
    rw [Nat.min_eq_left (Nat.le_of_succ_le hN)] at hidx
    rw [GShare.run_replicate_succ, GShare.update_PHT, hidx,
      getD_set_other _ _ _ _ _ (Ne.symm (hi N (Nat.lt_succ_self N)))]
    exact ih (Nat.le_of_succ_le hN) i (fun j hj => hi j (Nat.lt_succ_of_lt hj))

/-- The counter that `predict(PC)` consults after `N ≤ H` taken branches at
`PC` is 0. -/
theorem GShare.counter_during_warmup (B H : Nat) (hH : H < 32) (PC T N : Nat) (hN : N ≤ H) :
    ((GShare.new B H).run (List.replicate N (PC, T, true))).PHT_.getD
      (((GShare.new B H).run (List.replicate N (PC, T, true))).PHT_index PC) 0 = 0 := by
  rw [GShare.PHT_index_taken_run B H hH, Nat.min_eq_left hN]
  exact GShare.untouched_counter B H hH PC T N hN _
    (fun j hj => xor_ones_ne (PC >>> 2) H N j hj hN)

/-- After `H + k` taken branches at `PC` the counter that `predict(PC)` consults
is exactly `min k 3`. -/
theorem GShare.counter_after_warmup (B H : Nat) (hH : H < 32) (PC T : Nat) (k : Nat) :
    ((GShare.new B H).run (List.replicate (H + k) (PC, T, true))).PHT_.getD
      (((PC >>> 2) ^^^ (2 ^ H - 1)) &&& (2 ^ H - 1)) 0 = min k 3 := by
  induction k with
  | zero =>
    have h := GShare.counter_during_warmup B H hH PC T H (Nat.le_refl H)
    rw [GShare.PHT_index_taken_run B H hH, Nat.min_self] at h
    exact h
  | succ k ih =>
    have hinv := GShare.Inv_run B H (List.replicate (H + k) (PC, T, true))
    have hidx := GShare.PHT_index_after_taken B H hH PC T (H + k) (Nat.le_add_right H k)
    have hlt := hinv.PHT_index_lt hH PC
    rw [← Nat.add_assoc, GShare.run_replicate_succ, GShare.update_PHT]
    simp only [hidx] at hlt ⊢
    rw [getD_set_same _ _ _ _ hlt, ih]
    unfold satStep
    simp only [if_true]
    split <;> omega

/-- The counter that `predict(PC)` consults after `N` taken branches at `PC`. -/
theorem GShare.consulted_counter (B H : Nat) (hH : H < 32) (PC T N : Nat) :
    ((GShare.new B H).run (List.replicate N (PC, T, true))).PHT_.getD
      (((GShare.new B H).run (List.replicate N (PC, T, true))).PHT_index PC) 0
      = if N ≤ H then 0 else min (N - H) 3 := by
  by_cases hN : N ≤ H
  · rw [if_pos hN]
    exact GShare.counter_during_warmup B H hH PC T N hN
  · rw [if_neg hN]
    obtain ⟨k, rfl⟩ := Nat.exists_eq_add_of_le (Nat.le_of_not_le hN)
    rw [GShare.PHT_index_after_taken B H hH PC T (H + k) (Nat.le_add_right H k),
      GShare.counter_after_warmup B H hH PC T k, Nat.add_sub_cancel_left]

/-- Right after the last of `N ≥ 1` calls `update(PC, T, true)` on a `GShare`
with `0 < BTB_size ≤ 256`, a `predict(PC)` that resolves to taken returns `T`. -/
theorem GShare.predict_after_taken_run (B H : Nat) (hB : 0 < B) (hB256 : B ≤ 256)
    (PC T N : Nat)
    (ht : ((GShare.new B H).run (List.replicate (N + 1) (PC, T, true))).predict_taken PC
      = true) :
    ((GShare.new B H).run (List.replicate (N + 1) (PC, T, true))).predict PC = T := by
  rw [GShare.run_replicate_succ] at ht ⊢
  have hinv := GShare.Inv_run B H (List.replicate N (PC, T, true))
  have hB32 : B ≤ 2 ^ 32 := Nat.le_trans hB256 (by decide)
  have h8 := hinv.update_btb_index_lt hB hB32 PC
  rw [hinv.BTB_length] at h8
  exact GShare.predict_after_update hinv hB hB32 PC T (by omega) ht

/-- C17: with `H = BHR_size < 32` and starting from the freshly constructed
`GShare`, after `N` consecutive calls `update(PC, T, true)` the PHT counter that
`predict(PC)` consults equals 0 for `N ≤ H` and `min (N - H) 3` for `N > H`; so
`predict(PC)` returns `PC + 4` (mod `2 ^ 32`) for every `N ≤ H + 1`, and for
`0 < BTB_size ≤ 256` it returns `T` for every `N ≥ H + 2`. -/
theorem GShare.exact_warmup (B H : Nat) (hH : H < 32) (PC T N : Nat) :
    (((GShare.new B H).run (List.replicate N (PC, T, true))).PHT_.getD
        (((GShare.new B H).run (List.replicate N (PC, T, true))).PHT_index PC) 0
      = if N ≤ H then 0 else min (N - H) 3)
    ∧ (N ≤ H + 1 →
        ((GShare.new B H).run (List.replicate N (PC, T, true))).predict PC
          = (PC + 4) % 2 ^ 32)
    ∧ (0 < B → B ≤ 256 → H + 2 ≤ N →
        ((GShare.new B H).run (List.replicate N (PC, T, true))).predict PC = T) := by
  have hcnt := GShare.consulted_counter B H hH PC T N
  refine ⟨hcnt, ?_, ?_⟩
  · intro hN
    apply GShare.predict_not_taken
    unfold GShare.predict_taken
    rw [hcnt]
    apply decide_eq_false
    split <;> omega
  · intro hB hB256 hN
    have htaken :
        ((GShare.new B H).run (List.replicate N (PC, T, true))).predict_taken PC = true := by
      unfold GShare.predict_taken
      rw [hcnt]
      apply decide_eq_true
      split <;> omega
    obtain ⟨M, rfl⟩ : ∃ M, N = M + 1 := ⟨N - 1, by omega⟩
    exact GShare.predict_after_taken_run B H hB hB256 PC T M htaken

/-- C17 at `BTB_size = 4`, `BHR_size = 2`, `PC = 0x100`, `T = 0x200`: after
three updates the consulted counter is 1 and `predict` returns `0x104`; after
four it returns `0x200`. -/
theorem GShare.exact_warmup_witness :
    (2 < 32 ∧ 3 ≤ 2 + 1 ∧ 0 < 4 ∧ 4 ≤ 256 ∧ 2 + 2 ≤ 4)
    ∧ ((GShare.new 4 2).run (List.replicate 3 (0x100, 0x200, true))).PHT_.getD
        (((GShare.new 4 2).run (List.replicate 3 (0x100, 0x200, true))).PHT_index 0x100) 0
      = 1
    ∧ ((GShare.new 4 2).run (List.replicate 3 (0x100, 0x200, true))).predict 0x100
      = (0x100 + 4) % 2 ^ 32
    ∧ ((GShare.new 4 2).run (List.replicate 4 (0x100, 0x200, true))).predict 0x100 = 0x200 :=
  ⟨by decide,
    (GShare.exact_warmup 4 2 (by decide) 0x100 0x200 3).1.trans (by decide),
    (GShare.exact_warmup 4 2 (by decide) 0x100 0x200 3).2.1 (by decide),
    (GShare.exact_warmup 4 2 (by decide) 0x100 0x200 4).2.2 (by decide) (by decide)
      (by decide)⟩

/-! ## C18: what the check on the updated counter measures -/

/-- On a 2-bit counter, the check `(c' >= 2) == taken` on the updated counter
fails exactly at a saturated counter that is pushed the other way. -/
theorem judged_wrong_iff (c : Nat) (t : Bool) (hc : c ≤ 3) :
    (decide (2 ≤ satStep 3 c t) == t) = false
      ↔ (c = 0 ∧ t = true) ∨ (c = 3 ∧ t = false) := by
  interval_cases c <;> cases t <;> decide

/-- After a failed check the same counter passes the next check, whatever the
next outcome. -/
theorem judged_wrong_once (c : Nat) (t t2 : Bool) (hc : c ≤ 3)
    (h : (decide (2 ≤ satStep 3 c t) == t) = false) :
    (decide (2 ≤ satStep 3 (satStep 3 c t) t2) == t2) = true := by
  interval_cases c <;> cases t <;> cases t2 <;> revert h <;> decide

/-- The local `gshare_correct` of `update` as a check on the global counter of
`PC` before the call. -/
theorem GSharePlus.gshare_correct_check {B H : Nat} {s : GSharePlus}
    (hs : GSharePlus.Inv B H s) (hH : H < 32) (PC : Nat) (t : Bool) :
    s.gshare_correct PC t
      = (decide (2 ≤ satStep 3 (s.PHT_.getD (s.PHT_index PC) 0) t) == t) := by
  unfold GSharePlus.gshare_correct GSharePlus.PHT_after
  rw [getD_set_same _ _ _ _ (hs.plus_PHT_index_lt hH PC)]

/-- The local `local_correct` of `update` as a check on the local counter of
`PC` before the call. -/
theorem GSharePlus.local_correct_check {B H : Nat} {s : GSharePlus}
    (hs : GSharePlus.Inv B H s) (PC : Nat) (t : Bool) :
    s.local_correct PC t
      = (decide (2 ≤ satStep 3 (s.LPHT_.getD (s.lpht_index PC) 0) t) == t) := by
  unfold GSharePlus.local_correct GSharePlus.LPHT_after
  rw [getD_set_same _ _ _ _ (hs.lpht_index_lt PC)]

/-- The local counter of `PC` after `update(PC, _, taken)`. -/
theorem GSharePlus.local_counter_after_update {B H : Nat} {s : GSharePlus}
    (hs : GSharePlus.Inv B H s) (PC T : Nat) (t : Bool) :
    (s.update PC T t).LPHT_.getD (s.lpht_index PC) 0
      = satStep 3 (s.LPHT_.getD (s.lpht_index PC) 0) t := by
  rw [GSharePlus.update_LPHT, GSharePlus.LPHT_after]
  exact getD_set_same _ _ _ _ (hs.lpht_index_lt PC)

/-- C18: for every 2-bit counter value `c` and outcome `taken`, with `c'` the
saturating update of `c`, the check `(c' >= 2) == taken` is false exactly when
`c = 0` and taken, or `c = 3` and not taken.  In every state of `GSharePlus` of
the constructed shape (`BHR_size < 32`) this is the check `update` makes on the
global and on the local counter of `PC`; hence a sub-predictor judged wrong in
one `update` is judged right in the next `update` that meets the same counter
entry, and a counter at 1 (at 2) that mispredicts a taken (a not-taken) branch
is judged correct. -/
theorem GSharePlus.post_update_check (B H : Nat) (hH : H < 32) (s : GSharePlus)
    (hs : GSharePlus.Inv B H s) (PC T : Nat) (t : Bool) :
    (∀ c : Nat, c ≤ 3 →
      ((decide (2 ≤ satStep 3 c t) == t) = false ↔ (c = 0 ∧ t = true) ∨ (c = 3 ∧ t = false)))
    ∧ (s.gshare_correct PC t = false
        ↔ (s.PHT_.getD (s.PHT_index PC) 0 = 0 ∧ t = true)
          ∨ (s.PHT_.getD (s.PHT_index PC) 0 = 3 ∧ t = false))
    ∧ (s.local_correct PC t = false
        ↔ (s.LPHT_.getD (s.lpht_index PC) 0 = 0 ∧ t = true)
          ∨ (s.LPHT_.getD (s.lpht_index PC) 0 = 3 ∧ t = false))
    ∧ (∀ (PC2 : Nat) (t2 : Bool), s.gshare_correct PC t = false →
        (s.update PC T t).PHT_index PC2 = s.PHT_index PC →
        (s.update PC T t).gshare_correct PC2 t2 = true)
    ∧ (∀ (PC2 : Nat) (t2 : Bool), s.local_correct PC t = false →
        (s.update PC T t).lpht_index PC2 = s.lpht_index PC →
        (s.update PC T t).local_correct PC2 t2 = true)
    ∧ (s.PHT_.getD (s.PHT_index PC) 0 = 1 → t = true →
        s.gshare_pred PC = false ∧ s.gshare_correct PC t = true)
    ∧ (s.PHT_.getD (s.PHT_index PC) 0 = 2 → t = false →
        s.gshare_pred PC = true ∧ s.gshare_correct PC t = true)
    ∧ (s.LPHT_.getD (s.lpht_index PC) 0 = 1 → t = true →
        s.local_pred PC = false ∧ s.local_correct PC t = true)
    ∧ (s.LPHT_.getD (s.lpht_index PC) 0 = 2 → t = false →
        s.local_pred PC = true ∧ s.local_correct PC t = true) := by
  have hg := GSharePlus.gshare_correct_check hs hH PC t
  have hl := GSharePlus.local_correct_check hs PC t
  have hcg : s.PHT_.getD (s.PHT_index PC) 0 ≤ 3 :=
    getD_le_of_forall _ _ _ _ hs.PHT_le (by decide)
  have hcl : s.LPHT_.getD (s.lpht_index PC) 0 ≤ 3 :=
    getD_le_of_forall _ _ _ _ hs.LPHT_le (by decide)
  have hs2 := GSharePlus.plus_Inv_update B H s PC T t hs
  refine ⟨fun c hc => judged_wrong_iff c t hc, ?_, ?_, ?_, ?_, ?_, ?_, ?_, ?_⟩
  · rw [hg]
    exact judged_wrong_iff _ t hcg
  · rw [hl]
    exact judged_wrong_iff _ t hcl
  · intro PC2 t2 hw hidx
    rw [hg] at hw
    rw [GSharePlus.gshare_correct_check hs2 hH PC2 t2, hidx,
      GSharePlus.counter_after_update hs hH PC T t]
    exact judged_wrong_once _ t t2 hcg hw
  · intro PC2 t2 hw hidx
    rw [hl] at hw
    rw [GSharePlus.local_correct_check hs2 PC2 t2, hidx,
      GSharePlus.local_counter_after_update hs PC T t]
    exact judged_wrong_once _ t t2 hcl hw
  · intro h1 ht
    subst ht
    refine ⟨?_, ?_⟩
    · unfold GSharePlus.gshare_pred
      rw [h1]
      rfl
    · rw [hg, h1]
      rfl
  · intro h2 ht
    subst ht
    refine ⟨?_, ?_⟩
    · unfold GSharePlus.gshare_pred
      rw [h2]
      rfl
    · rw [hg, h2]
      rfl
  · intro h1 ht
    subst ht
    refine ⟨?_, ?_⟩
    · unfold GSharePlus.local_pred
      rw [h1]
      rfl
    · rw [hl, h1]
      rfl
  · intro h2 ht
    subst ht
    refine ⟨?_, ?_⟩
    · unfold GSharePlus.local_pred
      rw [h2]
      rfl
    · rw [hl, h2]
      rfl

/-- C18 at `BTB_size = 4`, `BHR_size = 2`: on the fresh predictor the global
counter of `0x100` is 0, a taken branch is judged "global wrong" and the next
update at `0x100` judges it right; after one update the counter is 1, it
mispredicts the next taken branch and is judged correct. -/
theorem GSharePlus.post_update_check_witness :
    (2 < 32
      ∧ (GSharePlus.new 4 2).gshare_correct 0x100 true = false
      ∧ ((GSharePlus.new 4 2).run [(0x100, 0x200, true)]).PHT_.getD
          (((GSharePlus.new 4 2).run [(0x100, 0x200, true)]).PHT_index 0x100) 0 = 1)
    ∧ ((GSharePlus.new 4 2).update 0x100 0x200 true).gshare_correct 0x100 false = true
    ∧ (((GSharePlus.new 4 2).run [(0x100, 0x200, true)]).gshare_pred 0x100 = false
      ∧ ((GSharePlus.new 4 2).run [(0x100, 0x200, true)]).gshare_correct 0x100 true = true) :=
  ⟨by decide,
    (GSharePlus.post_update_check 4 2 (by decide) (GSharePlus.new 4 2)
      (GSharePlus.plus_Inv_new 4 2) 0x100 0x200 true).2.2.2.1 0x100 false (by decide)
      (by decide),
    (GSharePlus.post_update_check 4 2 (by decide) _
      (GSharePlus.plus_Inv_run 4 2 [(0x100, 0x200, true)]) 0x100 0x200 true).2.2.2.2.2.1
      (by decide) rfl⟩

/-! ## C19: `predict` and `update` of GShare on the same BTB slot -/

/-- C19: for `0 < BTB_size ≤ 256` (in particular every power of two up to 256),
in every state reachable from construction the 8-bit BTB index of `predict` and
the 32-bit BTB index of `update` are equal for every PC, and right after
`update(PC, T, true)` a `predict(PC)` whose direction is taken returns `T`. -/
theorem GShare.btb_slot_agreement (B H : Nat) (hB : 0 < B) (hB256 : B ≤ 256)
    (calls : List Call) (PC T : Nat) :
    ((GShare.new B H).run calls).predict_btb_index PC
      = ((GShare.new B H).run calls).update_btb_index PC
    ∧ ((((GShare.new B H).run calls).update PC T true).predict_taken PC = true →
        (((GShare.new B H).run calls).update PC T true).predict PC = T) := by
  have hinv := GShare.Inv_run B H calls
  have hB32 : B ≤ 2 ^ 32 := Nat.le_trans hB256 (by decide)
  have h8 := hinv.update_btb_index_lt hB hB32 PC
  rw [hinv.BTB_length] at h8
  have h256 : ((GShare.new B H).run calls).update_btb_index PC < 256 := by omega
  refine ⟨?_, ?_⟩
  · show ((PC >>> 2) &&& ((GShare.new B H).run calls).BTB_mask_) % 2 ^ 8
      = ((GShare.new B H).run calls).update_btb_index PC
    exact Nat.mod_eq_of_lt h256
  · intro ht
    exact GShare.predict_after_update hinv hB hB32 PC T h256 ht

/-- C19 at the largest size, `BTB_size = 256` (`BHR_size = 1`), for the PC
`0x3FC` of BTB index 255: after two calls `update(0x3FC, 0x200, true)` the third
makes `predict(0x3FC)` taken, and it returns `0x200`. -/
theorem GShare.btb_slot_agreement_witness :
    (0 < 256 ∧ 256 ≤ 256)
    ∧ ((GShare.new 256 1).run (List.replicate 2 (0x3FC, 0x200, true))).update_btb_index 0x3FC
        = 255
    ∧ ((GShare.new 256 1).run (List.replicate 2 (0x3FC, 0x200, true))).predict_btb_index 0x3FC
        = ((GShare.new 256 1).run (List.replicate 2 (0x3FC, 0x200, true))).update_btb_index
            0x3FC
    ∧ (((GShare.new 256 1).run (List.replicate 2 (0x3FC, 0x200, true))).update
        0x3FC 0x200 true).predict 0x3FC = 0x200 :=
  ⟨by decide, by decide,
    (GShare.btb_slot_agreement 256 1 (by decide) (by decide)
      (List.replicate 2 (0x3FC, 0x200, true)) 0x3FC 0x200).1,
    (GShare.btb_slot_agreement 256 1 (by decide) (by decide)
      (List.replicate 2 (0x3FC, 0x200, true)) 0x3FC 0x200).2 (by decide)⟩

/-! ## C20: a BTB hit of GSharePlus belongs to the queried branch -/

theorem lastTarget_append_singleton (PC : Nat) (cs : List Call) (c : Call) :
    lastTarget PC (cs ++ [c])
      = if c.1 = PC ∧ c.2.2 = true then some c.2.1 else lastTarget PC cs := by
  unfold lastTarget
  rw [List.foldl_append]
  rfl

/-- A target reported by `lastTarget` comes from a call `update(PC, T, true)`. -/
theorem lastTarget_mem (PC T : Nat) (calls : List Call) :
    lastTarget PC calls = some T → (PC, T, true) ∈ calls := by
  induction calls using List.reverseRecOn with
  | nil => intro h; exact absurd h (by simp [lastTarget])
  | append_singleton cs c ih =>
    intro h
    rw [lastTarget_append_singleton] at h
    obtain ⟨cPC, cT, ct⟩ := c
    by_cases hc : cPC = PC ∧ ct = true
    · rw [if_pos hc] at h
      obtain ⟨h1, h2⟩ := hc
      have h3 : cT = T := Option.some.inj h
      subst h1 h2 h3
      exact List.mem_append_right _ (List.mem_singleton_self _)
    · rw [if_neg hc] at h
      exact List.mem_append_left _ (ih h)

/-- In every state reached from construction (`BTB_size = 2 ^ k`) by calls at
word-aligned PCs, a valid BTB entry at the index of a word-aligned `PC` that
carries the tag `PC >> BTB_shift_` holds the target of the most recent call
`update(PC, T, true)`. -/
theorem GSharePlus.hit_is_last_target (k H : Nat) (hk : k < 32) :
    ∀ calls : List Call, (∀ c ∈ calls, c.1 % 4 = 0) → ∀ PC : Nat, PC % 4 = 0 →
      (((GSharePlus.new (2 ^ k) H).run calls).BTB_.getD
          (((GSharePlus.new (2 ^ k) H).run calls).btb_index PC) BTB_empty).valid = true →
      (((GSharePlus.new (2 ^ k) H).run calls).BTB_.getD
          (((GSharePlus.new (2 ^ k) H).run calls).btb_index PC) BTB_empty).tag
        = PC >>> ((GSharePlus.new (2 ^ k) H).run calls).BTB_shift_ →
      lastTarget PC calls
        = some (((GSharePlus.new (2 ^ k) H).run calls).BTB_.getD
            (((GSharePlus.new (2 ^ k) H).run calls).btb_index PC) BTB_empty).target_PC := by
  intro calls
  induction calls using List.reverseRecOn with
  | nil =>
    intro _ PC _ hv _
    have he : ((GSharePlus.new (2 ^ k) H).run []).BTB_.getD
        (((GSharePlus.new (2 ^ k) H).run []).btb_index PC) BTB_empty = BTB_empty :=
      getD_replicate_same _ _ _
    rw [he] at hv
    exact absurd hv (by decide)
  | append_singleton cs c ih =>
    intro hal PC hPC
    have hal1 : ∀ c ∈ cs, c.1 % 4 = 0 := fun x hx => hal x (List.mem_append_left _ hx)
    have hc4 : c.1 % 4 = 0 := hal c (List.mem_append_right _ (List.mem_singleton_self _))
    have hinv := GSharePlus.plus_Inv_run (2 ^ k) H cs
    have hB : 0 < 2 ^ k := Nat.two_pow_pos k
    have hshift : ((GSharePlus.new (2 ^ k) H).run cs).BTB_shift_ = k := by
      rw [hinv.BTB_shift, log2ceil_two_pow k hk]
    have hmask : ((GSharePlus.new (2 ^ k) H).run cs).BTB_mask_ = 2 ^ k - 1 := by
      rw [hinv.BTB_mask, if_pos hB]
    obtain ⟨cPC, cT, ct⟩ := c
    rw [GSharePlus.plus_run_append, GSharePlus.plus_run_cons, GSharePlus.plus_run_nil,
      lastTarget_append_singleton, GSharePlus.update_btb_index,
      GSharePlus.plus_update_BTB_shift]
    cases ct with
    | false =>
      rw [GSharePlus.plus_update_BTB_not_taken,
        if_neg (fun h : cPC = PC ∧ false = true => Bool.false_ne_true h.2)]
      exact ih hal1 PC hPC
    | true =>
      rw [GSharePlus.plus_update_BTB_taken, getD_set]
      by_cases hidx : ((GSharePlus.new (2 ^ k) H).run cs).btb_index cPC
          = ((GSharePlus.new (2 ^ k) H).run cs).btb_index PC
      · have hlt : ((GSharePlus.new (2 ^ k) H).run cs).btb_index cPC
            < ((GSharePlus.new (2 ^ k) H).run cs).BTB_.length := by
          rw [hinv.BTB_length]
          exact hinv.btb_index_lt hB cPC
        rw [if_pos ⟨hidx, hlt⟩]
        intro _ htag
        have htag2 : cPC >>> k = PC >>> k := by
          rw [hshift] at htag
          exact htag
        have hidx2 := hidx
        unfold GSharePlus.btb_index at hidx2
        rw [hmask] at hidx2
        have heq : cPC = PC := aligned_eq_of_index_of_tag k cPC PC hc4 hPC hidx2 htag2
        rw [if_pos ⟨heq, rfl⟩]
      · rw [if_neg (fun h => hidx h.1)]
        have hne : ¬ (cPC = PC ∧ true = true) := fun h => hidx (by rw [h.1])
        rw [if_neg hne]
        exact ih hal1 PC hPC

/-- C20: for `BTB_size = 2 ^ k` (`k < 32`), in every state reached from
construction by `update` calls at word-aligned PCs, and for every word-aligned
`PC`: if `BTB[(PC >> 2) & btb_mask]` is valid with `tag == PC >> btb_shift`, then
some earlier call was `update(PC, T, true)` with exactly this PC and the entry's
`target_PC` is the `T` of the most recent such call; so `predict(PC)` returns
either `PC + 4` or the target last trained for `PC` itself. -/
theorem GSharePlus.btb_hit_sound (k H : Nat) (hk : k < 32) (calls : List Call)
    (hal : ∀ c ∈ calls, c.1 % 4 = 0) (PC : Nat) (hPC : PC % 4 = 0) :
    ((((GSharePlus.new (2 ^ k) H).run calls).BTB_.getD
          (((GSharePlus.new (2 ^ k) H).run calls).btb_index PC) BTB_empty).valid = true
        ∧ (((GSharePlus.new (2 ^ k) H).run calls).BTB_.getD
          (((GSharePlus.new (2 ^ k) H).run calls).btb_index PC) BTB_empty).tag
            = PC >>> ((GSharePlus.new (2 ^ k) H).run calls).BTB_shift_ →
      lastTarget PC calls
          = some (((GSharePlus.new (2 ^ k) H).run calls).BTB_.getD
              (((GSharePlus.new (2 ^ k) H).run calls).btb_index PC) BTB_empty).target_PC
        ∧ (PC, (((GSharePlus.new (2 ^ k) H).run calls).BTB_.getD
              (((GSharePlus.new (2 ^ k) H).run calls).btb_index PC) BTB_empty).target_PC,
            true) ∈ calls)
    ∧ (((GSharePlus.new (2 ^ k) H).run calls).predict PC = (PC + 4) % 2 ^ 32
        ∨ lastTarget PC calls = some (((GSharePlus.new (2 ^ k) H).run calls).predict PC)) := by
  have hmain := GSharePlus.hit_is_last_target k H hk calls hal PC hPC
  refine ⟨?_, ?_⟩
  · intro h
    have h1 := hmain h.1 h.2
    exact ⟨h1, lastTarget_mem PC _ calls h1⟩
  · unfold GSharePlus.predict
    by_cases ht : ((GSharePlus.new (2 ^ k) H).run calls).predict_taken PC = true
    · by_cases hv : (((GSharePlus.new (2 ^ k) H).run calls).BTB_.getD
          (((GSharePlus.new (2 ^ k) H).run calls).btb_index PC) BTB_empty).valid = true
      · by_cases hg : (((GSharePlus.new (2 ^ k) H).run calls).BTB_.getD
            (((GSharePlus.new (2 ^ k) H).run calls).btb_index PC) BTB_empty).tag
              = PC >>> ((GSharePlus.new (2 ^ k) H).run calls).BTB_shift_
        · right
          simp only [ht, hv, decide_eq_true hg, Bool.and_self, if_true]
          exact hmain hv hg
        · left
          simp only [ht, hv, decide_eq_false hg, Bool.and_false, Bool.false_eq_true, if_false,
            if_true]
      · left
        rw [Bool.not_eq_true] at hv
        simp only [ht, hv, Bool.false_and, Bool.false_eq_true, if_false, if_true]
    · left
      rw [Bool.not_eq_true] at ht
      simp only [ht, Bool.false_eq_true, if_false]

/-- C20 at `BTB_size = 2 ^ 2`, `BHR_size = 2`: the branches `0x100` and `0x110`
share BTB index 0; after `update(0x100, 0x200, true)`,
`update(0x110, 0x300, true)`, `update(0x100, 0x400, true)` the entry carries the
tag of `0x100` and its target `0x400` is that of the last call at `0x100`. -/
theorem GSharePlus.btb_hit_sound_witness :
    ((∀ c ∈ [((0x100 : Nat), (0x200 : Nat), true), (0x110, 0x300, true), (0x100, 0x400, true)],
        c.1 % 4 = 0) ∧ 0x100 % 4 = 0 ∧ 2 < 32)
    ∧ (((GSharePlus.new (2 ^ 2) 2).run
          [(0x100, 0x200, true), (0x110, 0x300, true), (0x100, 0x400, true)]).BTB_.getD
        (((GSharePlus.new (2 ^ 2) 2).run
          [(0x100, 0x200, true), (0x110, 0x300, true), (0x100, 0x400, true)]).btb_index 0x100)
        BTB_empty).target_PC = 0x400
    ∧ lastTarget 0x100 [(0x100, 0x200, true), (0x110, 0x300, true), (0x100, 0x400, true)]
      = some (((GSharePlus.new (2 ^ 2) 2).run
          [(0x100, 0x200, true), (0x110, 0x300, true), (0x100, 0x400, true)]).BTB_.getD
        (((GSharePlus.new (2 ^ 2) 2).run
          [(0x100, 0x200, true), (0x110, 0x300, true), (0x100, 0x400, true)]).btb_index 0x100)
        BTB_empty).target_PC :=
  ⟨by decide, by decide,
    ((GSharePlus.btb_hit_sound 2 2 (by decide)
      [(0x100, 0x200, true), (0x110, 0x300, true), (0x100, 0x400, true)] (by decide) 0x100
      (by decide)).1 (by decide)).1⟩
